import Mathlib

/-!
Verification of the raft-follower replication subsystem of a JMAP mail
server.  The definitions below are a shallow embedding of the follower state
machine (src/cluster/follower.rs) and of the store primitives it relies on.
Store primitives whose implementation is not part of the sources (the
store::log module, the write-batch layer, the rollback bookkeeping and the
merged-changes calculator) are modelled from the specification; each such
definition carries a doc comment saying so.
-/

set_option maxRecDepth 100000

/-- Decidable equality for options written without Eq.rec, so that concrete
computations reduce inside the kernel. -/
instance (priority := 2000) optionDecEqKernel {α : Type} [DecidableEq α] :
    DecidableEq (Option α) := fun x y =>
  match x, y with
  | some a, some b => decidable_of_iff (a = b) (by simp)
  | none, none => isTrue rfl
  | some _, none => isFalse (fun h => Option.noConfusion h)
  | none, some _ => isFalse (fun h => Option.noConfusion h)

/-- Decidable equality for pairs written without Eq.rec, so that concrete
computations reduce inside the kernel. -/
instance (priority := 2000) prodDecEqKernel {α β : Type} [DecidableEq α] [DecidableEq β] :
    DecidableEq (α × β) := fun x y =>
  decidable_of_iff (x.1 = y.1 ∧ x.2 = y.2) (by cases x; cases y; simp)

/-- Account identifiers (u32 in the source). -/
abbrev AccountId := Nat

/-- Document identifiers (u32 in the source). -/
abbrev DocumentId := Nat

/-- Log indexes (u64 in the source). -/
abbrev LogIndex := Nat

/-- Term identifiers (u64 in the source). -/
abbrev TermId := Nat

/-- Largest u64 value; the source uses LogIndex::MAX as a sentinel. -/
def logIndexMax : Nat := 2 ^ 64 - 1

/-- Largest u32 value; the source uses AccountId::MAX as a placeholder
account for a freshly created write batch. -/
def accountIdMax : Nat := 2 ^ 32 - 1

/-- Modelled from the spec: a RaftId is a pair (term, index) identifying a
position in the replicated log (store::log::RaftId is not among the
sources). -/
structure RaftId where
  term : TermId
  index : LogIndex

instance : DecidableEq RaftId := fun x y =>
  decidable_of_iff (x.term = y.term ∧ x.index = y.index) (by cases x; cases y; simp)

/-- Modelled from the spec: the sentinel RaftId standing for no position
yet.  The source sentinel carries index LogIndex::MAX. -/
def RaftId.noneId : RaftId := ⟨0, logIndexMax⟩

/-- Modelled from the spec: a RaftId is the sentinel exactly when its index
is LogIndex::MAX. -/
def RaftId.is_none (r : RaftId) : Bool := r.index = logIndexMax

/-- Modelled from the spec: the total order on RaftId, by term and then by
index. -/
def raftLe (a b : RaftId) : Prop :=
  a.term < b.term ∨ (a.term = b.term ∧ a.index ≤ b.index)

instance (a b : RaftId) : Decidable (raftLe a b) := by
  unfold raftLe; infer_instance

/-- Document collections named by the replication core (store::Collection;
only the collections the follower code distinguishes are modelled, with a
catch-all for the rest). -/
inductive Collection
  | mail
  | mailbox
  | thread
  | other

instance : DecidableEq Collection := fun x y =>
  match x, y with
  | .mail, .mail => isTrue rfl
  | .mailbox, .mailbox => isTrue rfl
  | .thread, .thread => isTrue rfl
  | .other, .other => isTrue rfl
  | .mail, .mailbox => isFalse (fun h => Collection.noConfusion h)
  | .mail, .thread => isFalse (fun h => Collection.noConfusion h)
  | .mail, .other => isFalse (fun h => Collection.noConfusion h)
  | .mailbox, .mail => isFalse (fun h => Collection.noConfusion h)
  | .mailbox, .thread => isFalse (fun h => Collection.noConfusion h)
  | .mailbox, .other => isFalse (fun h => Collection.noConfusion h)
  | .thread, .mail => isFalse (fun h => Collection.noConfusion h)
  | .thread, .mailbox => isFalse (fun h => Collection.noConfusion h)
  | .thread, .other => isFalse (fun h => Collection.noConfusion h)
  | .other, .mail => isFalse (fun h => Collection.noConfusion h)
  | .other, .mailbox => isFalse (fun h => Collection.noConfusion h)
  | .other, .thread => isFalse (fun h => Collection.noConfusion h)

/-- Modelled from the spec: one raw change-record item, a created, updated
or deleted document id (the serialized change format is not among the
sources). -/
inductive Change
  | insert (id : DocumentId)
  | update (id : DocumentId)
  | delete (id : DocumentId)

instance : DecidableEq Change := fun x y =>
  match x, y with
  | .insert a, .insert b => decidable_of_iff (a = b) (by simp)
  | .update a, .update b => decidable_of_iff (a = b) (by simp)
  | .delete a, .delete b => decidable_of_iff (a = b) (by simp)
  | .insert _, .update _ => isFalse (fun h => Change.noConfusion h)
  | .insert _, .delete _ => isFalse (fun h => Change.noConfusion h)
  | .update _, .insert _ => isFalse (fun h => Change.noConfusion h)
  | .update _, .delete _ => isFalse (fun h => Change.noConfusion h)
  | .delete _, .insert _ => isFalse (fun h => Change.noConfusion h)
  | .delete _, .update _ => isFalse (fun h => Change.noConfusion h)

/-- Modelled from the spec: collapsed insert, update and delete document-id
sets for one account and collection over an index range (the MergedChanges
type lives in the cluster log module, not among the sources). -/
structure MergedChanges where
  inserts : Finset DocumentId
  updates : Finset DocumentId
  deletes : Finset DocumentId

instance : DecidableEq MergedChanges := fun x y =>
  decidable_of_iff (x.inserts = y.inserts ∧ x.updates = y.updates ∧ x.deletes = y.deletes)
    (by cases x; cases y; simp)

/-- Modelled from the spec: an empty merged-changes value. -/
def MergedChanges.empty : MergedChanges := ⟨∅, ∅, ∅⟩

/-- Modelled from the spec: folding one raw change item into the running
merged result under the precedence rules of the specification: an id
inserted and later deleted in range nets out of the inserts set and never
surfaces as a delete; an update of an id already inserted in range keeps it
an insert; a delete of an id never inserted in range stays a delete; the
three sets are kept pairwise disjoint. -/
def MergedChanges.applyChange (mc : MergedChanges) : Change → MergedChanges
  | .insert id => ⟨insert id mc.inserts, mc.updates.erase id, mc.deletes.erase id⟩
  | .update id =>
      if id ∈ mc.inserts ∨ id ∈ mc.deletes then mc
      else ⟨mc.inserts, insert id mc.updates, mc.deletes⟩
  | .delete id =>
      if id ∈ mc.inserts then ⟨mc.inserts.erase id, mc.updates, mc.deletes⟩
      else ⟨mc.inserts, mc.updates.erase id, insert id mc.deletes⟩

/-- Pairwise disjointness of the three merged sets, the invariant claimed by
the specification. -/
def MergedChanges.disjointSets (mc : MergedChanges) : Prop :=
  Disjoint mc.inserts mc.updates ∧ Disjoint mc.inserts mc.deletes ∧
    Disjoint mc.updates mc.deletes

/-- Modelled from the spec: a raft log entry value, either the footprint of
one committed operation or a compacted snapshot marker covering many
accounts (store::log::Entry is not among the sources; its two variants are
taken from the deletion code in follower.rs). -/
inductive Entry
  | item (account_id : AccountId) (changed_collections : List Collection)
  | snapshot (changed_accounts : List (List Collection × List AccountId))

instance : DecidableEq Entry := fun x y =>
  match x, y with
  | .item a c, .item b d => decidable_of_iff (a = b ∧ c = d) (by simp)
  | .snapshot a, .snapshot b => decidable_of_iff (a = b) (by simp)
  | .item _ _, .snapshot _ => isFalse (fun h => Entry.noConfusion h)
  | .snapshot _, .item _ _ => isFalse (fun h => Entry.noConfusion h)

/-- Ascending list of the elements of a finite set of naturals; used to
model iteration over a bitmap or hash set, whose iteration order the
replication logic never relies on. -/
def ascList (s : Finset Nat) : List Nat :=
  (List.range (s.sup id + 1)).filter (fun x => decide (x ∈ s))

/-- Tagged payload of one replicated per-document mutation
(cluster::log::DocumentUpdate).  Tags are modelled as naturals and the
compressed mail body as a byte list. -/
inductive DocumentUpdate
  | insertMail (thread_id : DocumentId) (keywords : Finset Nat) (mailboxes : Finset Nat)
      (received_at : Int) (body : List Nat)
  | updateMail (thread_id : DocumentId) (keywords : Finset Nat) (mailboxes : Finset Nat)
  | updateMailbox (mailbox : Nat)

instance : DecidableEq DocumentUpdate := fun x y =>
  match x, y with
  | .insertMail a b c d e, .insertMail f g h i j =>
      decidable_of_iff (a = f ∧ b = g ∧ c = h ∧ d = i ∧ e = j) (by simp)
  | .updateMail a b c, .updateMail d e f =>
      decidable_of_iff (a = d ∧ b = e ∧ c = f) (by simp)
  | .updateMailbox a, .updateMailbox b => decidable_of_iff (a = b) (by simp)
  | .insertMail _ _ _ _ _, .updateMail _ _ _ => isFalse (fun h => DocumentUpdate.noConfusion h)
  | .insertMail _ _ _ _ _, .updateMailbox _ => isFalse (fun h => DocumentUpdate.noConfusion h)
  | .updateMail _ _ _, .insertMail _ _ _ _ _ => isFalse (fun h => DocumentUpdate.noConfusion h)
  | .updateMail _ _ _, .updateMailbox _ => isFalse (fun h => DocumentUpdate.noConfusion h)
  | .updateMailbox _, .insertMail _ _ _ _ _ => isFalse (fun h => DocumentUpdate.noConfusion h)
  | .updateMailbox _, .updateMail _ _ _ => isFalse (fun h => DocumentUpdate.noConfusion h)

/-- Items streamed inside an AppendEntriesRequest::Update message
(cluster::log::Update).  The serialized change and log payloads are carried
structurally. -/
inductive Update
  | change (account_id : AccountId) (collection : Collection) (change : List Change)
  | log (raft_id : RaftId) (log : Entry)
  | document (account_id : AccountId) (document_id : DocumentId) (update : DocumentUpdate)
  | eof

instance : DecidableEq Update := fun x y =>
  match x, y with
  | .change a b c, .change d e f => decidable_of_iff (a = d ∧ b = e ∧ c = f) (by simp)
  | .log a b, .log c d => decidable_of_iff (a = c ∧ b = d) (by simp)
  | .document a b c, .document d e f => decidable_of_iff (a = d ∧ b = e ∧ c = f) (by simp)
  | .eof, .eof => isTrue rfl
  | .change _ _ _, .log _ _ => isFalse (fun h => Update.noConfusion h)
  | .change _ _ _, .document _ _ _ => isFalse (fun h => Update.noConfusion h)
  | .change _ _ _, .eof => isFalse (fun h => Update.noConfusion h)
  | .log _ _, .change _ _ _ => isFalse (fun h => Update.noConfusion h)
  | .log _ _, .document _ _ _ => isFalse (fun h => Update.noConfusion h)
  | .log _ _, .eof => isFalse (fun h => Update.noConfusion h)
  | .document _ _ _, .change _ _ _ => isFalse (fun h => Update.noConfusion h)
  | .document _ _ _, .log _ _ => isFalse (fun h => Update.noConfusion h)
  | .document _ _ _, .eof => isFalse (fun h => Update.noConfusion h)
  | .eof, .change _ _ _ => isFalse (fun h => Update.noConfusion h)
  | .eof, .log _ _ => isFalse (fun h => Update.noConfusion h)
  | .eof, .document _ _ _ => isFalse (fun h => Update.noConfusion h)

/-- Staged not-yet-applied mutation (PendingUpdate in follower.rs). -/
inductive PendingUpdate
  | updateDocument (account_id : AccountId) (document_id : DocumentId)
      (update : DocumentUpdate)
  | deleteDocuments (account_id : AccountId) (collection : Collection)
      (document_ids : List DocumentId)

instance : DecidableEq PendingUpdate := fun x y =>
  match x, y with
  | .updateDocument a b c, .updateDocument d e f =>
      decidable_of_iff (a = d ∧ b = e ∧ c = f) (by simp)
  | .deleteDocuments a b c, .deleteDocuments d e f =>
      decidable_of_iff (a = d ∧ b = e ∧ c = f) (by simp)
  | .updateDocument _ _ _, .deleteDocuments _ _ _ =>
      isFalse (fun h => PendingUpdate.noConfusion h)
  | .deleteDocuments _ _ _, .updateDocument _ _ _ =>
      isFalse (fun h => PendingUpdate.noConfusion h)

/-- Serialized batch of staged mutations (PendingUpdates in follower.rs). -/
structure PendingUpdates where
  updates : List PendingUpdate

instance : DecidableEq PendingUpdates := fun x y =>
  decidable_of_iff (x.updates = y.updates) (by cases x; cases y; simp)

/-- Constructor mirroring PendingUpdates::new. -/
def PendingUpdates.new (updates : List PendingUpdate) : PendingUpdates := ⟨updates⟩

/-- Append-entries requests sent by the leader
(cluster::log::AppendEntriesRequest). -/
inductive AppendEntriesRequest
  | matchRequest (last_log : RaftId)
  | synchronizeRequest (match_terms : List RaftId)
  | mergeRequest (matched_log : RaftId)
  | updateRequest (commit_index : LogIndex) (updates : List Update)

/-- Append-entries responses produced by the follower
(cluster::log::AppendEntriesResponse).  Serialized payloads (index bitmaps,
merged changes) are carried structurally rather than as bytes. -/
inductive AppendEntriesResponse
  | matchResponse (match_log : RaftId)
  | synchronizeResponse (match_indexes : List Nat)
  | continueResponse
  | updateResponse (account_id : AccountId) (collection : Collection)
      (changes : MergedChanges)
  | commitResponse (commit_index : LogIndex)

instance : DecidableEq AppendEntriesResponse := fun x y =>
  match x, y with
  | .matchResponse a, .matchResponse b => decidable_of_iff (a = b) (by simp)
  | .synchronizeResponse a, .synchronizeResponse b => decidable_of_iff (a = b) (by simp)
  | .continueResponse, .continueResponse => isTrue rfl
  | .updateResponse a b c, .updateResponse d e f =>
      decidable_of_iff (a = d ∧ b = e ∧ c = f) (by simp)
  | .commitResponse a, .commitResponse b => decidable_of_iff (a = b) (by simp)
  | .matchResponse _, .synchronizeResponse _ => isFalse (fun h => AppendEntriesResponse.noConfusion h)
  | .matchResponse _, .continueResponse => isFalse (fun h => AppendEntriesResponse.noConfusion h)
  | .matchResponse _, .updateResponse _ _ _ => isFalse (fun h => AppendEntriesResponse.noConfusion h)
  | .matchResponse _, .commitResponse _ => isFalse (fun h => AppendEntriesResponse.noConfusion h)
  | .synchronizeResponse _, .matchResponse _ => isFalse (fun h => AppendEntriesResponse.noConfusion h)
  | .synchronizeResponse _, .continueResponse => isFalse (fun h => AppendEntriesResponse.noConfusion h)
  | .synchronizeResponse _, .updateResponse _ _ _ => isFalse (fun h => AppendEntriesResponse.noConfusion h)
  | .synchronizeResponse _, .commitResponse _ => isFalse (fun h => AppendEntriesResponse.noConfusion h)
  | .continueResponse, .matchResponse _ => isFalse (fun h => AppendEntriesResponse.noConfusion h)
  | .continueResponse, .synchronizeResponse _ => isFalse (fun h => AppendEntriesResponse.noConfusion h)
  | .continueResponse, .updateResponse _ _ _ => isFalse (fun h => AppendEntriesResponse.noConfusion h)
  | .continueResponse, .commitResponse _ => isFalse (fun h => AppendEntriesResponse.noConfusion h)
  | .updateResponse _ _ _, .matchResponse _ => isFalse (fun h => AppendEntriesResponse.noConfusion h)
  | .updateResponse _ _ _, .synchronizeResponse _ => isFalse (fun h => AppendEntriesResponse.noConfusion h)
  | .updateResponse _ _ _, .continueResponse => isFalse (fun h => AppendEntriesResponse.noConfusion h)
  | .updateResponse _ _ _, .commitResponse _ => isFalse (fun h => AppendEntriesResponse.noConfusion h)
  | .commitResponse _, .matchResponse _ => isFalse (fun h => AppendEntriesResponse.noConfusion h)
  | .commitResponse _, .synchronizeResponse _ => isFalse (fun h => AppendEntriesResponse.noConfusion h)
  | .commitResponse _, .continueResponse => isFalse (fun h => AppendEntriesResponse.noConfusion h)
  | .commitResponse _, .updateResponse _ _ _ => isFalse (fun h => AppendEntriesResponse.noConfusion h)

/-- States of the follower state machine (State in follower.rs).  The
changed-accounts hash map is modelled as an association list; the vector
drained by request_updates keeps the same element type. -/
inductive FollowerState
  | synchronize
  | appendEntries (first_id : RaftId) (last_id : RaftId)
      (changed_accounts : List (AccountId × List Collection))
  | appendChanges (first_id : RaftId) (last_id : RaftId)
      (changed_accounts : List (AccountId × List Collection))
  | rollback (account_id : AccountId) (collection : Collection) (changes : MergedChanges)

instance : DecidableEq FollowerState := fun x y =>
  match x, y with
  | .synchronize, .synchronize => isTrue rfl
  | .appendEntries a b c, .appendEntries d e f =>
      decidable_of_iff (a = d ∧ b = e ∧ c = f) (by simp)
  | .appendChanges a b c, .appendChanges d e f =>
      decidable_of_iff (a = d ∧ b = e ∧ c = f) (by simp)
  | .rollback a b c, .rollback d e f =>
      decidable_of_iff (a = d ∧ b = e ∧ c = f) (by simp)
  | .synchronize, .appendEntries _ _ _ => isFalse (fun h => FollowerState.noConfusion h)
  | .synchronize, .appendChanges _ _ _ => isFalse (fun h => FollowerState.noConfusion h)
  | .synchronize, .rollback _ _ _ => isFalse (fun h => FollowerState.noConfusion h)
  | .appendEntries _ _ _, .synchronize => isFalse (fun h => FollowerState.noConfusion h)
  | .appendEntries _ _ _, .appendChanges _ _ _ => isFalse (fun h => FollowerState.noConfusion h)
  | .appendEntries _ _ _, .rollback _ _ _ => isFalse (fun h => FollowerState.noConfusion h)
  | .appendChanges _ _ _, .synchronize => isFalse (fun h => FollowerState.noConfusion h)
  | .appendChanges _ _ _, .appendEntries _ _ _ => isFalse (fun h => FollowerState.noConfusion h)
  | .appendChanges _ _ _, .rollback _ _ _ => isFalse (fun h => FollowerState.noConfusion h)
  | .rollback _ _ _, .synchronize => isFalse (fun h => FollowerState.noConfusion h)
  | .rollback _ _ _, .appendEntries _ _ _ => isFalse (fun h => FollowerState.noConfusion h)
  | .rollback _ _ _, .appendChanges _ _ _ => isFalse (fun h => FollowerState.noConfusion h)

/-- Keys of the live document store: account, collection, document id. -/
abbrev DocKey := AccountId × Collection × DocumentId

/-- Modelled from the spec: the document fields touched by the raft update
path.  Tag fields are finsets of tag ids; the body field stands for the
parsed message content produced by the (out of scope) ingest pipeline. -/
structure MailDoc where
  mailboxes : Finset Nat
  keywords : Finset Nat
  threadIds : Finset Nat
  body : List Nat
  receivedAt : Int

instance : DecidableEq MailDoc := fun x y =>
  decidable_of_iff (x.mailboxes = y.mailboxes ∧ x.keywords = y.keywords ∧
    x.threadIds = y.threadIds ∧ x.body = y.body ∧ x.receivedAt = y.receivedAt)
    (by cases x; cases y; simp)

/-- Document with no tags and no content, the state tag operations start
from when no document row exists. -/
def MailDoc.emptyDoc : MailDoc := ⟨∅, ∅, ∅, [], 0⟩

/-- Values held by the document store. -/
inductive DocVal
  | mail (m : MailDoc)
  | mailboxDoc (v : Nat)
  | otherDoc

instance : DecidableEq DocVal := fun x y =>
  match x, y with
  | .mail a, .mail b => decidable_of_iff (a = b) (by simp)
  | .mailboxDoc a, .mailboxDoc b => decidable_of_iff (a = b) (by simp)
  | .otherDoc, .otherDoc => isTrue rfl
  | .mail _, .mailboxDoc _ => isFalse (fun h => DocVal.noConfusion h)
  | .mail _, .otherDoc => isFalse (fun h => DocVal.noConfusion h)
  | .mailboxDoc _, .mail _ => isFalse (fun h => DocVal.noConfusion h)
  | .mailboxDoc _, .otherDoc => isFalse (fun h => DocVal.noConfusion h)
  | .otherDoc, .mail _ => isFalse (fun h => DocVal.noConfusion h)
  | .otherDoc, .mailboxDoc _ => isFalse (fun h => DocVal.noConfusion h)

/-- Modelled from the spec: the live document store, a map from document
keys to optional document values.  The external storage engine only needs
to provide point reads, batched writes and deletes. -/
def DocStore := DocKey → Option DocVal

/-- Point read from the document store. -/
def getDoc (s : DocStore) (k : DocKey) : Option DocVal := s k

/-- Point write to the document store. -/
def setDoc (s : DocStore) (k : DocKey) (v : DocVal) : DocStore :=
  fun q => if q = k then some v else s q

/-- Point delete from the document store. -/
def delDoc (s : DocStore) (k : DocKey) : DocStore :=
  fun q => if q = k then none else s q

/-- Tag operations accumulated for one document by raft_update_mail.  For
the mailbox and keyword fields the source emits clear operations before add
operations; for the thread field it emits the add before the clear; the
per-field application below follows that order. -/
structure DocumentDelta where
  mailboxClears : Finset Nat
  mailboxAdds : Finset Nat
  keywordClears : Finset Nat
  keywordAdds : Finset Nat
  threadAdds : Finset Nat
  threadClears : Finset Nat

instance : DecidableEq DocumentDelta := fun x y =>
  decidable_of_iff (x.mailboxClears = y.mailboxClears ∧ x.mailboxAdds = y.mailboxAdds ∧
    x.keywordClears = y.keywordClears ∧ x.keywordAdds = y.keywordAdds ∧
    x.threadAdds = y.threadAdds ∧ x.threadClears = y.threadClears)
    (by cases x; cases y; simp)

/-- Delta carrying no tag operation; a document holding it is empty in the
sense of the document.is_empty check of the source. -/
def DocumentDelta.emptyDelta : DocumentDelta := ⟨∅, ∅, ∅, ∅, ∅, ∅⟩

/-- Application of an accumulated tag delta to a mail document. -/
def MailDoc.applyDelta (m : MailDoc) (d : DocumentDelta) : MailDoc :=
  ⟨(m.mailboxes \ d.mailboxClears) ∪ d.mailboxAdds,
   (m.keywords \ d.keywordClears) ∪ d.keywordAdds,
   (m.threadIds ∪ d.threadAdds) \ d.threadClears,
   m.body, m.receivedAt⟩

/-- Modelled from the spec: one operation of a write batch
(store::batch::WriteBatch is not among the sources; insert_document,
update_document and delete_document are the operations used by the
replication core). -/
inductive BatchOp
  | insertDocument (collection : Collection) (document_id : DocumentId) (doc : DocVal)
  | updateDocument (collection : Collection) (document_id : DocumentId)
      (delta : DocumentDelta)
  | deleteDocument (collection : Collection) (document_id : DocumentId)

instance : DecidableEq BatchOp := fun x y =>
  match x, y with
  | .insertDocument a b c, .insertDocument d e f =>
      decidable_of_iff (a = d ∧ b = e ∧ c = f) (by simp)
  | .updateDocument a b c, .updateDocument d e f =>
      decidable_of_iff (a = d ∧ b = e ∧ c = f) (by simp)
  | .deleteDocument a b, .deleteDocument c d => decidable_of_iff (a = c ∧ b = d) (by simp)
  | .insertDocument _ _ _, .updateDocument _ _ _ => isFalse (fun h => BatchOp.noConfusion h)
  | .insertDocument _ _ _, .deleteDocument _ _ => isFalse (fun h => BatchOp.noConfusion h)
  | .updateDocument _ _ _, .insertDocument _ _ _ => isFalse (fun h => BatchOp.noConfusion h)
  | .updateDocument _ _ _, .deleteDocument _ _ => isFalse (fun h => BatchOp.noConfusion h)
  | .deleteDocument _ _, .insertDocument _ _ _ => isFalse (fun h => BatchOp.noConfusion h)
  | .deleteDocument _ _, .updateDocument _ _ _ => isFalse (fun h => BatchOp.noConfusion h)

/-- Modelled from the spec: a write batch scoped to one account
(store::batch::WriteBatch). -/
structure WriteBatch where
  account_id : AccountId
  ops : List BatchOp

instance : DecidableEq WriteBatch := fun x y =>
  decidable_of_iff (x.account_id = y.account_id ∧ x.ops = y.ops) (by cases x; cases y; simp)

/-- Constructor mirroring WriteBatch::new. -/
def WriteBatch.new (account_id : AccountId) : WriteBatch := ⟨account_id, []⟩

/-- Emptiness check mirroring WriteBatch::is_empty. -/
def WriteBatch.is_empty (b : WriteBatch) : Bool := b.ops.isEmpty

/-- Batched delete mirroring WriteBatch::delete_document. -/
def WriteBatch.delete_document (b : WriteBatch) (collection : Collection)
    (document_id : DocumentId) : WriteBatch :=
  ⟨b.account_id, b.ops ++ [.deleteDocument collection document_id]⟩

/-- Modelled from the spec: effect of one batched operation on the store.
An update against a missing document applies its tag operations to an empty
document, mirroring tag-bitmap stores where tags live independently of a
document row. -/
def applyBatchOp (account_id : AccountId) (s : DocStore) : BatchOp → DocStore
  | .insertDocument c d v => setDoc s (account_id, c, d) v
  | .updateDocument c d delta =>
      match getDoc s (account_id, c, d) with
      | some (.mail m) => setDoc s (account_id, c, d) (.mail (m.applyDelta delta))
      | some _ => s
      | none => setDoc s (account_id, c, d) (.mail (MailDoc.emptyDoc.applyDelta delta))
  | .deleteDocument c d => delDoc s (account_id, c, d)

/-- Modelled from the spec: atomic application of a write batch to the
store (JMAPStore::write). -/
def writeBatch (s : DocStore) (b : WriteBatch) : DocStore :=
  b.ops.foldl (applyBatchOp b.account_id) s

/-- Modelled from the spec: reading the stored tag set of one field of one
document (JMAPStore::get_document_tags); an absent document or an empty tag
set reads back as none. -/
def get_document_tags (s : DocStore) (account_id : AccountId) (collection : Collection)
    (document_id : DocumentId) (field : MailDoc → Finset Nat) : Option (Finset Nat) :=
  match getDoc s (account_id, collection, document_id) with
  | some (.mail m) => if field m = ∅ then none else some (field m)
  | _ => none

/-- Modelled from the spec: reading the single stored thread id of a mail
document (JMAPStore::get_document_tag_id); in well-formed stores the field
holds at most one id, so the smallest stored tag is read. -/
def get_document_tag_id (s : DocStore) (account_id : AccountId) (collection : Collection)
    (document_id : DocumentId) : Option Nat :=
  match get_document_tags s account_id collection document_id MailDoc.threadIds with
  | some ts => (ascList ts).head?
  | none => none

/-- Embedding of raft_update_mail (jmap_mail::mail::import, lines 447-591).
With an insert payload the full mail document is built from the raw message
and tagged with the carried mailbox, keyword and thread sets
(build_message_document is abstracted as storing the raw message).  Without
one, the current mailbox, keyword and thread tags are read and the
difference to the requested sets is accumulated as a tag delta; a missing
mailbox tag set or thread id aborts the update without batching anything,
and an empty delta batches nothing. -/
def raft_update_mail (s : DocStore) (batch : WriteBatch) (account_id : AccountId)
    (document_id : DocumentId) (thread_id : DocumentId) (mailboxes : Finset Nat)
    (keywords : Finset Nat) (insert : Option (List Nat × Int)) : WriteBatch :=
  match insert with
  | some (raw_message, received_at) =>
      { batch with ops := batch.ops ++ [.insertDocument .mail document_id
          (.mail ⟨mailboxes, keywords, {thread_id}, raw_message, received_at⟩)] }
  | none =>
      match get_document_tags s account_id .mail document_id MailDoc.mailboxes with
      | none => batch
      | some current_mailboxes =>
          let mailboxDelta : Finset Nat × Finset Nat :=
            if current_mailboxes ≠ mailboxes then
              (current_mailboxes \ mailboxes, mailboxes \ current_mailboxes)
            else (∅, ∅)
          let current_keywords :=
            (get_document_tags s account_id .mail document_id MailDoc.keywords).getD ∅
          let keywordDelta : Finset Nat × Finset Nat :=
            if current_keywords ≠ keywords then
              (current_keywords \ keywords, keywords \ current_keywords)
            else (∅, ∅)
          match get_document_tag_id s account_id .mail document_id with
          | none => batch
          | some current_thread_id =>
              let threadDelta : Finset Nat × Finset Nat :=
                if thread_id ≠ current_thread_id then ({thread_id}, {current_thread_id})
                else (∅, ∅)
              let delta : DocumentDelta :=
                ⟨mailboxDelta.1, mailboxDelta.2, keywordDelta.1, keywordDelta.2,
                  threadDelta.1, threadDelta.2⟩
              if delta = DocumentDelta.emptyDelta then batch
              else { batch with ops := batch.ops ++ [.updateDocument .mail document_id delta] }

/-- Modelled from the spec: raft_update_mailbox applies the carried mailbox
metadata to the batch with set semantics (the mailbox module is not among
the sources). -/
def raft_update_mailbox (batch : WriteBatch) (document_id : DocumentId)
    (mailbox : Nat) : WriteBatch :=
  { batch with ops := batch.ops ++ [.insertDocument .mailbox document_id
      (.mailboxDoc mailbox)] }

/-- Embedding of apply_document_update (follower.rs lines 1285-1338):
dispatch on the update variant, decompressing the carried body for inserted
mail through the external codec passed as a function; a codec failure
aborts the enclosing round. -/
def apply_document_update (decompress : List Nat → Option (List Nat)) (s : DocStore)
    (account_id : AccountId) (document_id : DocumentId) (update : DocumentUpdate)
    (document_batch : WriteBatch) : Option WriteBatch :=
  match update with
  | .insertMail thread_id keywords mailboxes received_at body =>
      match decompress body with
      | some raw_message =>
          some (raft_update_mail s document_batch account_id document_id thread_id
            mailboxes keywords (some (raw_message, received_at)))
      | none => none
  | .updateMail thread_id keywords mailboxes =>
      some (raft_update_mail s document_batch account_id document_id thread_id
        mailboxes keywords none)
  | .updateMailbox mailbox =>
      some (raft_update_mailbox document_batch document_id mailbox)

/-- Account-switch step shared by the batching loops (follower.rs lines
1116-1123 and 1256-1263): when the next update belongs to a different
account the accumulated batch is flushed, or an empty batch is retagged. -/
def switchAccount (s : DocStore) (b : WriteBatch) (account_id : AccountId) :
    DocStore × WriteBatch :=
  if account_id ≠ b.account_id then
    if b.is_empty then (s, { b with account_id := account_id })
    else (writeBatch s b, WriteBatch.new account_id)
  else (s, b)

/-- Embedding of the per-entry application loop of apply_pending_updates
(follower.rs lines 1098-1154): staged updates are dispatched through
apply_document_update or expanded into per-document deletes, batches are
flushed on account switches and once at the end. -/
def applyPendingUpdateList (decompress : List Nat → Option (List Nat)) :
    DocStore → WriteBatch → List PendingUpdate → Option DocStore
  | s, b, [] => some (if b.is_empty then s else writeBatch s b)
  | s, b, .updateDocument account_id document_id update :: rest =>
      let sb := switchAccount s b account_id
      match apply_document_update decompress sb.1 account_id document_id update sb.2 with
      | some b2 => applyPendingUpdateList decompress sb.1 b2 rest
      | none => none
  | s, b, .deleteDocuments account_id collection document_ids :: rest =>
      let sb := switchAccount s b account_id
      applyPendingUpdateList decompress sb.1
        { sb.2 with ops := sb.2.ops ++ document_ids.map (BatchOp.deleteDocument collection) }
        rest

/-- Embedding of apply_rollback_updates (follower.rs lines 1243-1283):
document updates are applied through the same per-document path, an Eof
item marks the rollback stream complete, and the final batch is flushed. -/
def apply_rollback_updates (decompress : List Nat → Option (List Nat)) :
    DocStore → WriteBatch → Bool → List Update → Option (DocStore × Bool)
  | s, b, is_done, [] => some ((if b.is_empty then s else writeBatch s b), is_done)
  | s, b, is_done, .document account_id document_id update :: rest =>
      let sb := switchAccount s b account_id
      match apply_document_update decompress sb.1 account_id document_id update sb.2 with
      | some b2 => apply_rollback_updates decompress sb.1 b2 is_done rest
      | none => none
  | s, b, _, .eof :: rest => apply_rollback_updates decompress s b true rest
  | s, b, is_done, .change _ _ _ :: rest => apply_rollback_updates decompress s b is_done rest
  | s, b, is_done, .log _ _ :: rest => apply_rollback_updates decompress s b is_done rest

/-- Change-record key: account, collection and raft index
(LogKey::serialize_change). -/
structure ChangeKey where
  account_id : AccountId
  collection : Collection
  index : LogIndex

instance : DecidableEq ChangeKey := fun x y =>
  decidable_of_iff (x.account_id = y.account_id ∧ x.collection = y.collection ∧
    x.index = y.index) (by cases x; cases y; simp)

/-- Modelled from the spec: the log column family and value entries touched
by the follower, each serialized key family modelled as a typed association
list, together with the live document store. -/
structure Db where
  raftLog : List (RaftId × Entry)
  changes : List (ChangeKey × List Change)
  pending : List ((LogIndex × Nat) × PendingUpdates)
  lastApplied : Option LogIndex
  rollbacks : List (AccountId × Collection × MergedChanges)
  docs : DocStore

/-- One write of the log batch accumulated by handle_update_log. -/
inductive LogWrite
  | changeWrite (key : ChangeKey) (value : List Change)
  | raftWrite (id : RaftId) (entry : Entry)

instance : DecidableEq LogWrite := fun x y =>
  match x, y with
  | .changeWrite a b, .changeWrite c d => decidable_of_iff (a = c ∧ b = d) (by simp)
  | .raftWrite a b, .raftWrite c d => decidable_of_iff (a = c ∧ b = d) (by simp)
  | .changeWrite _ _, .raftWrite _ _ => isFalse (fun h => LogWrite.noConfusion h)
  | .raftWrite _ _, .changeWrite _ _ => isFalse (fun h => LogWrite.noConfusion h)

/-- Set-or-replace write into an association list, modelling a key-value
set operation of the storage engine. -/
def upsert {κ ν : Type} [DecidableEq κ] (l : List (κ × ν)) (k : κ) (v : ν) :
    List (κ × ν) :=
  if l.any (fun e => decide (e.1 = k)) then
    l.map (fun e => if e.1 = k then (k, v) else e)
  else l ++ [(k, v)]

/-- Application of one log-batch write to the database. -/
def applyLogWrite (db : Db) : LogWrite → Db
  | .changeWrite k v => { db with changes := upsert db.changes k v }
  | .raftWrite id e => { db with raftLog := upsert db.raftLog id e }

/-- Insertion of an element into a list sorted by the given comparison. -/
def insertSortedBy {α : Type} (le : α → α → Bool) (x : α) : List α → List α
  | [] => [x]
  | y :: ys => if le x y then x :: y :: ys else y :: insertSortedBy le x ys

/-- Insertion sort by the given comparison, modelling iteration over a key
family in serialized key order. -/
def sortedBy {α : Type} (le : α → α → Bool) (l : List α) : List α :=
  l.foldr (insertSortedBy le) []

/-- Modelled from the spec: get_prev_raft_id returns the newest RaftId of
the local raft log that is at most the given watermark in the (term, index)
order, or none when no stored id qualifies (store::log is not among the
sources; section 4.4 and testable property 5 of the spec fix the at-most
reading).  The fold step keeps the newest qualifying id seen so far. -/
def gpriStep (key : RaftId) (acc : Option RaftId) (e : RaftId × Entry) : Option RaftId :=
  if raftLe e.1 key then
    match acc with
    | none => some e.1
    | some m => if raftLe m e.1 then some e.1 else some m
  else acc

/-- Modelled from the spec: get_prev_raft_id folds gpriStep over the local
raft log, returning the newest stored RaftId at most the given watermark,
or none when no stored id qualifies. -/
def get_prev_raft_id (db : Db) (key : RaftId) : Option RaftId :=
  db.raftLog.foldl (gpriStep key) none

/-- Modelled from the spec: the newest RaftId of the local log
(RaftStore::get_last_log). -/
def get_last_log (db : Db) : Option RaftId :=
  get_prev_raft_id db ⟨logIndexMax, logIndexMax⟩

/-- Modelled from the spec: the ordered list of term boundaries of the
local log, one RaftId per term carrying the newest index of that term
(RaftStore::get_raft_match_terms). -/
def get_raft_match_terms (db : Db) : List RaftId :=
  (sortedBy (fun a b => decide (raftLe a b)) (db.raftLog.map (·.1))).foldl
    (fun acc id =>
      match acc.getLast? with
      | some prev => if prev.term = id.term then acc.dropLast ++ [id] else acc ++ [id]
      | none => [id]) []

/-- Modelled from the spec: the set of log indexes this node stores from
the given index on (RaftStore::get_raft_match_indexes), returned as an
ascending index list in place of a serialized bitmap. -/
def get_raft_match_indexes (db : Db) (from_index : LogIndex) : List LogIndex :=
  sortedBy (fun a b => decide (a ≤ b))
    (((db.raftLog.map (fun e => e.1.index)).filter
      (fun i => decide (from_index ≤ i))).dedup)

/-- Modelled from the spec: merge_changes scans every change record of the
account and collection in the range (from_index, to_index] in ascending
index order and folds it into an empty merged result; the Thread collection
always collapses to empty (section 4.3 of the spec; the merged-changes
calculator is not among the sources). -/
def merge_changes (db : Db) (account_id : AccountId) (collection : Collection)
    (from_index : LogIndex) (to_index : LogIndex) : MergedChanges :=
  if collection = .thread then MergedChanges.empty
  else
    let records := db.changes.filter (fun e =>
      decide (e.1.account_id = account_id) && decide (e.1.collection = collection) &&
      decide (from_index < e.1.index) && decide (e.1.index ≤ to_index))
    let ordered := sortedBy (fun a b => decide (a.1.index ≤ b.1.index)) records
    (ordered.map (·.2)).foldl (fun mc cs => cs.foldl MergedChanges.applyChange mc)
      MergedChanges.empty

/-- Modelled from the spec: prepare_rollback_changes marks every account
and collection with change records after the matched index as needing
reconciliation, each carrying the merged changes of its divergent
suffix. -/
def prepare_rollback_changes (db : Db) (after_index : LogIndex) : Db :=
  let pairs := (db.changes.filter (fun e => decide (after_index < e.1.index))).foldl
    (fun (acc : List (AccountId × Collection)) e =>
      if acc.any (fun p => decide (p = (e.1.account_id, e.1.collection))) then acc
      else acc ++ [(e.1.account_id, e.1.collection)]) []
  { db with rollbacks := pairs.map (fun p =>
      (p.1, p.2, merge_changes db p.1 p.2 after_index logIndexMax)) }

/-- Modelled from the spec: the first pending rollback entry, if any
(RaftStore::next_rollback_change). -/
def next_rollback_change (db : Db) : Option (AccountId × Collection × MergedChanges) :=
  db.rollbacks.head?

/-- Modelled from the spec: removal of the rollback bookkeeping of one
account and collection (RaftStore::remove_rollback_change). -/
def remove_rollback_change (db : Db) (account_id : AccountId)
    (collection : Collection) : Db :=
  { db with rollbacks := db.rollbacks.filter (fun p =>
      !(decide (p.1 = account_id) && decide (p.2.1 = collection))) }

/-- Key order of staged pending-update entries: commit index, then sequence
(LogKey::serialize_pending_update is big-endian index then sequence). -/
def pendingKeyLe (a b : (LogIndex × Nat) × PendingUpdates) : Bool :=
  decide (a.1.1 < b.1.1) || (decide (a.1.1 = b.1.1) && decide (a.1.2 ≤ b.1.2))

/-- Key order of raft log entries: index, then term (LogKey::serialize_raft
is big-endian index then term). -/
def raftKeyLe (a b : RaftId × Entry) : Bool :=
  decide (a.1.index < b.1.index) ||
    (decide (a.1.index = b.1.index) && decide (a.1.term ≤ b.1.term))

/-- Change-record keys inferred from a raft entry deleted during a reset
(follower.rs lines 1192-1226), for both entry variants. -/
def entryChangeKeys (id : RaftId) : Entry → List ChangeKey
  | .item account_id changed_collections =>
      changed_collections.map (fun c => ⟨account_id, c, id.index⟩)
  | .snapshot changed_accounts =>
      changed_accounts.flatMap (fun p =>
        p.1.flatMap (fun c => p.2.map (fun a => ⟨a, c, id.index⟩)))

/-- Embedding of the staged-entry loop of apply_pending_updates
(follower.rs lines 1082-1165), over entries in key order: an entry at or
before the effective target index is applied to the document store and
deleted; a later entry is queued for deletion under a reset, and otherwise
ends the scan with itself and everything after it left staged. -/
def pendingScan (decompress : List Nat → Option (List Nat)) (apply_up_to : LogIndex)
    (do_reset : Bool) :
    DocStore → List ((LogIndex × Nat) × PendingUpdates) →
      Option (DocStore × List ((LogIndex × Nat) × PendingUpdates))
  | docs, [] => some (docs, [])
  | docs, e :: rest =>
      if apply_up_to ≠ logIndexMax ∧ e.1.1 ≤ apply_up_to then
        match applyPendingUpdateList decompress docs (WriteBatch.new accountIdMax)
            e.2.updates with
        | some docs2 => pendingScan decompress apply_up_to do_reset docs2 rest
        | none => none
      else if do_reset then pendingScan decompress apply_up_to do_reset docs rest
      else some (docs, e :: rest)

/-- Embedding of apply_pending_updates (follower.rs lines 1063-1241).  An
explicit target index is persisted as the last-applied marker, while the
sentinel LogIndex::MAX reads the marker back and, absent a marker, nothing
is done (Ok(false)).  Staged entries are then scanned in key order; under a
reset the last-applied marker is dropped and every raft entry visited from
the effective target on whose index is strictly greater than that target
(every visited entry when the effective target is the sentinel) is deleted
together with the change records inferred from it. -/
def apply_pending_updates (decompress : List Nat → Option (List Nat)) (db : Db)
    (apply_up_to : LogIndex) (do_reset : Bool) : Option (Db × Bool) :=
  let marker := if apply_up_to ≠ logIndexMax then some apply_up_to else db.lastApplied
  match marker with
  | none => some (db, false)
  | some effective =>
      let db :=
        if apply_up_to ≠ logIndexMax then { db with lastApplied := some apply_up_to }
        else db
      match pendingScan decompress effective do_reset db.docs
          (sortedBy pendingKeyLe db.pending) with
      | none => none
      | some (docs2, kept) =>
          let db := { db with docs := docs2, pending := kept }
          if do_reset then
            let seek_index := if effective ≠ logIndexMax then effective else 0
            let visited := (sortedBy raftKeyLe db.raftLog).filter
              (fun e => decide (seek_index ≤ e.1.index))
            let doomed := visited.filter (fun e =>
              decide (effective = logIndexMax) || decide (effective < e.1.index))
            let doomedChangeKeys := doomed.flatMap (fun e => entryChangeKeys e.1 e.2)
            some ({ db with
              lastApplied := none,
              raftLog := db.raftLog.filter
                (fun e => !(doomed.any (fun d => decide (d.1 = e.1)))),
              changes := db.changes.filter
                (fun e => !(doomedChangeKeys.any (fun k => decide (k = e.1)))) }, true)
          else some (db, true)

/-- In-memory follower bookkeeping next to the store: the up-to-date flag,
the change sequence counter of the follower task and the last committed
raft index mirror set_up_to_date, change_seq and update_raft_index. -/
structure Node where
  db : Db
  upToDate : Bool
  changeSeq : Nat
  raftIndex : LogIndex

/-- Modelled from the spec: staging key of a pending-updates batch
(LogKey::serialize_pending_update), the commit index and a monotonically
increasing sequence. -/
def serialize_pending_update (index : LogIndex) (seq : Nat) : LogIndex × Nat :=
  (index, seq)

/-- Size of the changed-accounts work list, the fuel measure for the
request_updates drain loop. -/
def changedMeasure (l : List (AccountId × List Collection)) : Nat :=
  l.foldl (fun n p => n + p.2.length + 1) 0

/-- Fuel-indexed body of request_updates (follower.rs lines 565-706).  The
changed-accounts work list is drained one collection at a time (the model
pops from the front where the source pops from the back of a vector filled
from a hash map whose order is arbitrary): Thread is skipped; a pair whose
merged changes contain deletes first stages a durable DeleteDocuments batch
and clears its deletes set; a pair still carrying inserts or updates parks
the remaining work list in AppendChanges and replies Update; an exhausted
pair is dropped.  Once the list is drained, pending updates are applied
locally when the last streamed index is at or below the leader commit
index, the node marks itself up to date when the two match exactly, and a
Commit reply returns the machine to Synchronize. -/
def requestUpdatesGo (decompress : List Nat → Option (List Nat))
    (first_id last_id : RaftId) (leader_commit_index : LogIndex) :
    Nat → Node → List (AccountId × List Collection) →
      Option (Node × FollowerState × AppendEntriesResponse)
  | 0, _, _ => none
  | fuel + 1, node, changed_accounts =>
      match changed_accounts with
      | [] =>
          if last_id.index ≤ leader_commit_index then
            match apply_pending_updates decompress node.db last_id.index false with
            | none => none
            | some (db2, _) =>
                let node := { node with db := db2 }
                let node :=
                  if last_id.index = leader_commit_index then
                    { node with upToDate := true, raftIndex := last_id.index }
                  else node
                some (node, .synchronize, .commitResponse last_id.index)
          else some (node, .synchronize, .commitResponse last_id.index)
      | (account_id, collections) :: restAccounts =>
          match collections with
          | [] =>
              requestUpdatesGo decompress first_id last_id leader_commit_index fuel
                node restAccounts
          | collection :: restCollections =>
              if collection = .thread then
                requestUpdatesGo decompress first_id last_id leader_commit_index fuel
                  node ((account_id, restCollections) :: restAccounts)
              else
                let changes := merge_changes node.db account_id collection
                  first_id.index last_id.index
                let sc :=
                  if changes.deletes ≠ ∅ then
                    ({ node with
                      db := { node.db with pending := node.db.pending ++
                        [(serialize_pending_update last_id.index node.changeSeq,
                          PendingUpdates.new [.deleteDocuments account_id collection
                            (ascList changes.deletes)])] },
                      changeSeq := node.changeSeq + 1 },
                      { changes with deletes := (∅ : Finset DocumentId) })
                  else (node, changes)
                if sc.2.inserts ≠ ∅ ∨ sc.2.updates ≠ ∅ then
                  some (sc.1, .appendChanges first_id last_id
                    ((account_id, restCollections) :: restAccounts),
                    .updateResponse account_id collection sc.2)
                else
                  requestUpdatesGo decompress first_id last_id leader_commit_index fuel
                    sc.1 ((account_id, restCollections) :: restAccounts)

/-- Entry point of the request_updates drain loop, with enough fuel to
drain the whole work list. -/
def request_updates (decompress : List Nat → Option (List Nat)) (node : Node)
    (first_id last_id : RaftId) (leader_commit_index : LogIndex)
    (changed_accounts : List (AccountId × List Collection)) :
    Option (Node × FollowerState × AppendEntriesResponse) :=
  requestUpdatesGo decompress first_id last_id leader_commit_index
    (changedMeasure changed_accounts + 1) node changed_accounts

/-- Accumulator of the streamed-entry scan of handle_update_log. -/
structure ScanAcc where
  first_id : RaftId
  last_id : RaftId
  log_batch : List LogWrite
  changed_accounts : List (AccountId × List Collection)
  is_done : Bool

/-- Recording one collection against an account in the changed-accounts
map, mirroring changed_accounts.entry(..).or_insert_with(..).insert(..). -/
def insertChanged (l : List (AccountId × List Collection)) (account_id : AccountId)
    (collection : Collection) : List (AccountId × List Collection) :=
  if l.any (fun p => decide (p.1 = account_id)) then
    l.map (fun p => if p.1 = account_id then
      (p.1, if collection ∈ p.2 then p.2 else p.2 ++ [collection]) else p)
  else l ++ [(account_id, [collection])]

/-- One step of the streamed-entry scan (the update loop of
handle_update_log, follower.rs lines 436-525): a Change is batched keyed by
the current, not yet final, last id and recorded in the changed-accounts
map; a Log adopts its raft id as the new last id, and as the first id when
none was seen yet; Eof marks the batch done; a Document item is invalid
here and ignored. -/
def scanStep (acc : ScanAcc) : Update → ScanAcc
  | .change account_id collection change =>
      { acc with
        log_batch := acc.log_batch ++
          [.changeWrite ⟨account_id, collection, acc.last_id.index⟩ change],
        changed_accounts := insertChanged acc.changed_accounts account_id collection }
  | .log raft_id log =>
      { acc with
        first_id := if acc.first_id.is_none then raft_id else acc.first_id,
        last_id := raft_id,
        log_batch := acc.log_batch ++ [.raftWrite raft_id log] }
  | .eof => { acc with is_done := true }
  | .document _ _ _ => acc

/-- Full streamed-entry scan of handle_update_log; the batch starts done
exactly when the update vector is empty (follower.rs line 434). -/
def updateLogScan (first_id last_id : RaftId)
    (changed_accounts : List (AccountId × List Collection)) (updates : List Update) :
    ScanAcc :=
  updates.foldl scanStep ⟨first_id, last_id, [], changed_accounts, updates.isEmpty⟩

/-- Embedding of handle_update_log (follower.rs lines 421-563): scan the
streamed items, write the accumulated log batch, then drain merged changes
through request_updates when the batch is done, and otherwise stay in
AppendEntries replying Continue. -/
def handle_update_log (decompress : List Nat → Option (List Nat)) (node : Node)
    (first_id last_id : RaftId) (leader_commit_index : LogIndex)
    (changed_accounts : List (AccountId × List Collection)) (updates : List Update) :
    Option (Node × FollowerState × AppendEntriesResponse) :=
  let acc := updateLogScan first_id last_id changed_accounts updates
  let node := { node with db := acc.log_batch.foldl applyLogWrite node.db }
  if acc.is_done then
    request_updates decompress node acc.first_id acc.last_id leader_commit_index
      acc.changed_accounts
  else
    some (node, .appendEntries acc.first_id acc.last_id acc.changed_accounts,
      .continueResponse)

/-- Embedding of handle_pending_updates (follower.rs lines 708-789):
streamed Document items become staged UpdateDocument pending updates,
written durably under the next staging key; without an Eof the machine
stays in AppendChanges replying Continue, and with one the drain resumes
through request_updates. -/
def handle_pending_updates (decompress : List Nat → Option (List Nat)) (node : Node)
    (first_id last_id : RaftId) (leader_commit_index : LogIndex)
    (changed_accounts : List (AccountId × List Collection)) (updates : List Update) :
    Option (Node × FollowerState × AppendEntriesResponse) :=
  let scanned := updates.foldl (fun (acc : List PendingUpdate × Bool) u =>
    match u with
    | .document account_id document_id update =>
        (acc.1 ++ [.updateDocument account_id document_id update], acc.2)
    | .eof => (acc.1, true)
    | _ => acc) ([], false)
  let node :=
    if scanned.1 ≠ [] then
      { node with
        db := { node.db with pending := node.db.pending ++
          [(serialize_pending_update last_id.index node.changeSeq,
            PendingUpdates.new scanned.1)] },
        changeSeq := node.changeSeq + 1 }
    else node
  if !scanned.2 then
    some (node, .appendChanges first_id last_id changed_accounts, .continueResponse)
  else
    request_updates decompress node first_id last_id leader_commit_index
      changed_accounts

/-- Embedding of handle_match_log (follower.rs lines 791-814): reply Match
with the newest local id at most last_log, marking the node up to date when
it equals last_log; with no qualifying id reply the sentinel, marking the
node up to date when last_log itself is the sentinel. -/
def handle_match_log (node : Node) (last_log : RaftId) :
    Option (Node × AppendEntriesResponse) :=
  match get_prev_raft_id node.db last_log with
  | some matched =>
      some ({ node with upToDate := decide (matched = last_log) },
        .matchResponse matched)
  | none =>
      some ({ node with upToDate := if last_log.is_none then true else node.upToDate },
        .matchResponse RaftId.noneId)

/-- Last agreeing position of the pairwise walk over the zipped term
boundary lists (the loop of handle_synchronize_log, follower.rs lines
834-841), stopping at the first disagreement. -/
def matchedTermsId : List (RaftId × RaftId) → RaftId → RaftId
  | [], acc => acc
  | (l, r) :: rest, acc => if l = r then matchedTermsId rest l else acc

/-- Embedding of handle_synchronize_log (follower.rs lines 816-872): an
empty match-terms list from the peer aborts the connection with no reply;
otherwise the local and remote term boundaries are compared pairwise in
order and the locally known indexes from the divergence point on are
returned, an empty index set being an invariant violation that also
aborts. -/
def handle_synchronize_log (node : Node) (match_terms : List RaftId) :
    Option AppendEntriesResponse :=
  if match_terms.isEmpty then none
  else
    let local_match_terms := get_raft_match_terms node.db
    let matched_id := matchedTermsId (local_match_terms.zip match_terms) RaftId.noneId
    if !matched_id.is_none then
      match get_raft_match_indexes node.db matched_id.index with
      | [] => none
      | idx :: idxs => some (.synchronizeResponse (idx :: idxs))
    else some (.synchronizeResponse [])

/-- Fuel-indexed body of handle_rollback_updates (follower.rs lines
896-1021).  The Thread collection discards its change sets outright;
outstanding speculative inserts are deleted from the local store and
cleared; a non-empty update payload is applied as rollback data, an
incomplete application parking the machine in Rollback with Continue; a
pair with outstanding deletes or updates stays in Rollback replying Update;
an exhausted pair drops its bookkeeping and the loop moves to the next
pending rollback, or, with none left, replies Match with the local last log
and returns to Synchronize. -/
def handleRollbackGo (decompress : List Nat → Option (List Nat)) :
    Nat → Node → AccountId → Collection → MergedChanges → List Update →
      Option (Node × FollowerState × AppendEntriesResponse)
  | 0, _, _, _, _, _ => none
  | fuel + 1, node, account_id, collection, changes, updates =>
      let changes := if collection = .thread then MergedChanges.empty else changes
      let nc :=
        if changes.inserts ≠ ∅ then
          let batch := (ascList changes.inserts).foldl
            (fun b id => b.delete_document collection id) (WriteBatch.new account_id)
          ({ node with db := { node.db with docs := writeBatch node.db.docs batch } },
            { changes with inserts := (∅ : Finset DocumentId) })
        else (node, changes)
      let node := nc.1
      let changes := nc.2
      match (if updates ≠ [] then
          (apply_rollback_updates decompress node.db.docs (WriteBatch.new accountIdMax)
            false updates).map (fun r => (r.1, some r.2))
        else some (node.db.docs, none)) with
      | none => none
      | some (docs2, appliedDone) =>
          let node := { node with db := { node.db with docs := docs2 } }
          match appliedDone with
          | some false =>
              some (node, .rollback account_id collection changes, .continueResponse)
          | _ =>
              let changes :=
                match appliedDone with
                | some true => { changes with updates := ∅, deletes := ∅ }
                | _ => changes
              if changes.deletes ≠ ∅ ∨ changes.updates ≠ ∅ then
                some (node, .rollback account_id collection changes,
                  .updateResponse account_id collection changes)
              else
                let node := { node with
                  db := remove_rollback_change node.db account_id collection }
                match next_rollback_change node.db with
                | some (a2, c2, ch2) => handleRollbackGo decompress fuel node a2 c2 ch2 []
                | none =>
                    match get_last_log node.db with
                    | some last_log =>
                        some (node, .synchronize, .matchResponse last_log)
                    | none => none

/-- Entry point of the rollback loop, with enough fuel for the pending
rollback queue. -/
def handle_rollback_updates (decompress : List Nat → Option (List Nat)) (node : Node)
    (account_id : AccountId) (collection : Collection) (changes : MergedChanges)
    (updates : List Update) :
    Option (Node × FollowerState × AppendEntriesResponse) :=
  handleRollbackGo decompress (node.db.rollbacks.length + 2) node account_id collection
    changes updates

/-- Embedding of handle_merge_log (follower.rs lines 874-894): prepare
rollback bookkeeping for everything after the matched log and enter the
rollback loop on the first pending target; having none is an error that
aborts the connection. -/
def handle_merge_log (decompress : List Nat → Option (List Nat)) (node : Node)
    (matched_log : RaftId) :
    Option (Node × FollowerState × AppendEntriesResponse) :=
  let node := { node with db := prepare_rollback_changes node.db matched_log.index }
  match next_rollback_change node.db with
  | some (account_id, collection, changes) =>
      handle_rollback_updates decompress node account_id collection changes []
  | none => none

/-- One iteration of the follower event loop (the match of
spawn_raft_follower, follower.rs lines 134-343): defined request and state
combinations dispatch to their handlers and install the next state; a
handler failure breaks the loop without any reply, and an invalid
combination is unreachable in the source (a panic), both modelled as
none. -/
def follower_step (decompress : List Nat → Option (List Nat)) (node : Node)
    (state : FollowerState) (request : AppendEntriesRequest) :
    Option (Node × FollowerState × AppendEntriesResponse) :=
  match request, state with
  | .matchRequest last_log, .synchronize =>
      (handle_match_log node last_log).map (fun r => (r.1, .synchronize, r.2))
  | .synchronizeRequest match_terms, .synchronize =>
      (handle_synchronize_log node match_terms).map (fun r => (node, .synchronize, r))
  | .mergeRequest matched_log, .synchronize =>
      handle_merge_log decompress node matched_log
  | .updateRequest commit_index updates, .synchronize =>
      handle_update_log decompress { node with upToDate := false } RaftId.noneId
        RaftId.noneId commit_index [] updates
  | .updateRequest commit_index updates, .appendEntries first_id last_id changed_accounts =>
      handle_update_log decompress { node with upToDate := false } first_id last_id
        commit_index changed_accounts updates
  | .updateRequest commit_index updates, .appendChanges first_id last_id changed_accounts =>
      handle_pending_updates decompress node first_id last_id commit_index
        changed_accounts updates
  | .updateRequest _ updates, .rollback account_id collection changes =>
      handle_rollback_updates decompress node account_id collection changes updates
  | _, .rollback account_id collection changes =>
      handle_rollback_updates decompress node account_id collection changes []
  | _, _ => none

/-- Raft ids of the Log items of an update stream, in order. -/
def logIdsOf (updates : List Update) : List RaftId :=
  updates.filterMap (fun u => match u with | .log raft_id _ => some raft_id | _ => none)

/-- Specification of the log batch built by the streamed-entry scan: each
Change is keyed by the raft id of the closest preceding Log item (the
incoming last id when none precedes it), and each Log item writes its entry
under its own id. -/
def batchSpec (last_id : RaftId) : List Update → List LogWrite
  | [] => []
  | .change account_id collection change :: rest =>
      .changeWrite ⟨account_id, collection, last_id.index⟩ change ::
        batchSpec last_id rest
  | .log raft_id e :: rest => .raftWrite raft_id e :: batchSpec raft_id rest
  | .document _ _ _ :: rest => batchSpec last_id rest
  | .eof :: rest => batchSpec last_id rest

/-- Whether a response is the Continue reply. -/
def respIsContinue : AppendEntriesResponse → Bool
  | .continueResponse => true
  | _ => false

/-- Whether a response is a Commit reply. -/
def respIsCommit : AppendEntriesResponse → Bool
  | .commitResponse _ => true
  | _ => false

/-- Whether a state is an AppendEntries state. -/
def stateIsAppendEntries : FollowerState → Bool
  | .appendEntries _ _ _ => true
  | _ => false

/-- Store key written by one batched operation of an account's batch. -/
def opKey (account_id : AccountId) : BatchOp → DocKey
  | .insertDocument c d _ => (account_id, c, d)
  | .updateDocument c d _ => (account_id, c, d)
  | .deleteDocument c d => (account_id, c, d)

/-- Store keys written by a write batch. -/
def batchKeys (b : WriteBatch) : List DocKey := b.ops.map (opKey b.account_id)

/-- Store keys targeted by one staged update. -/
def updTargets : PendingUpdate → List DocKey
  | .updateDocument account_id document_id (.insertMail _ _ _ _ _) =>
      [(account_id, .mail, document_id)]
  | .updateDocument account_id document_id (.updateMail _ _ _) =>
      [(account_id, .mail, document_id)]
  | .updateDocument account_id document_id (.updateMailbox _) =>
      [(account_id, .mailbox, document_id)]
  | .deleteDocuments account_id collection document_ids =>
      document_ids.map (fun d => (account_id, collection, d))

/-- Whether the external codec accepts the body carried by one staged
update. -/
def updOk (decompress : List Nat → Option (List Nat)) : PendingUpdate → Bool
  | .updateDocument _ _ (.insertMail _ _ _ _ body) => (decompress body).isSome
  | _ => true

/-- Effect of one staged update applied immediately against the store, the
reference semantics the batching loop is compared with. -/
def applyUpdateNow (decompress : List Nat → Option (List Nat)) (s : DocStore) :
    PendingUpdate → Option DocStore
  | .updateDocument account_id document_id update =>
      (apply_document_update decompress s account_id document_id update
        (WriteBatch.new account_id)).map (fun b => writeBatch s b)
  | .deleteDocuments account_id collection document_ids =>
      some (writeBatch s
        ⟨account_id, document_ids.map (BatchOp.deleteDocument collection)⟩)

/-- Sequential immediate application of a list of staged updates. -/
def runUpdatesNow (decompress : List Nat → Option (List Nat)) :
    DocStore → List PendingUpdate → Option DocStore
  | s, [] => some s
  | s, u :: rest =>
      match applyUpdateNow decompress s u with
      | some s2 => runUpdatesNow decompress s2 rest
      | none => none

/-- Ops contributed by raft_update_mail for one document, read against the
given store (the ops of a fresh batch). -/
def raftUpdateMailOps (s : DocStore) (account_id : AccountId)
    (document_id thread_id : DocumentId) (mailboxes keywords : Finset Nat)
    (insert : Option (List Nat × Int)) : List BatchOp :=
  (raft_update_mail s (WriteBatch.new account_id) account_id document_id thread_id
    mailboxes keywords insert).ops

/-- Well-formed stores carry at most one thread id per mail document. -/
def WfStore (s : DocStore) : Prop :=
  ∀ k m, getDoc s k = some (.mail m) → m.threadIds.card ≤ 1

/-- Tag delta accumulated by raft_update_mail for one document, expressed
pointwise in the current tag values it reads; used to state its equations. -/
def mailDelta (current_mailboxes current_keywords : Finset Nat)
    (current_thread_id thread_id : Nat) (mailboxes keywords : Finset Nat) :
    DocumentDelta :=
  ⟨(if current_mailboxes ≠ mailboxes then current_mailboxes \ mailboxes else ∅),
   (if current_mailboxes ≠ mailboxes then mailboxes \ current_mailboxes else ∅),
   (if current_keywords ≠ keywords then current_keywords \ keywords else ∅),
   (if current_keywords ≠ keywords then keywords \ current_keywords else ∅),
   (if thread_id ≠ current_thread_id then {thread_id} else ∅),
   (if thread_id ≠ current_thread_id then {current_thread_id} else ∅)⟩

-- ==================== Theorems ====================

theorem raftLe_refl (a : RaftId) : raftLe a a := Or.inr ⟨rfl, le_refl _⟩

theorem raftLe_trans {a b c : RaftId} (h1 : raftLe a b) (h2 : raftLe b c) : raftLe a c := by
  rcases h1 with h1 | ⟨h1, h1i⟩ <;> rcases h2 with h2 | ⟨h2, h2i⟩
  · exact Or.inl (h1.trans h2)
  · exact Or.inl (h2 ▸ h1)
  · exact Or.inl (h1 ▸ h2)
  · exact Or.inr ⟨h1.trans h2, h1i.trans h2i⟩

theorem raftLe_total (a b : RaftId) : raftLe a b ∨ raftLe b a := by
  rcases Nat.lt_trichotomy a.term b.term with h | h | h
  · exact Or.inl (Or.inl h)
  · rcases Nat.le_total a.index b.index with hi | hi
    · exact Or.inl (Or.inr ⟨h, hi⟩)
    · exact Or.inr (Or.inr ⟨h.symm, hi⟩)
  · exact Or.inr (Or.inl h)

theorem MergedChanges.empty_disjointSets : MergedChanges.empty.disjointSets := by
  refine ⟨?_, ?_, ?_⟩ <;> simp [MergedChanges.empty]

theorem MergedChanges.mk_disjointSets {i u d : Finset DocumentId}
    (g1 : ∀ a ∈ i, a ∉ u) (g2 : ∀ a ∈ i, a ∉ d) (g3 : ∀ a ∈ u, a ∉ d) :
    (MergedChanges.mk i u d).disjointSets :=
  ⟨Finset.disjoint_left.mpr g1, Finset.disjoint_left.mpr g2, Finset.disjoint_left.mpr g3⟩

theorem MergedChanges.applyChange_disjointSets (mc : MergedChanges)
    (h : mc.disjointSets) (c : Change) : (mc.applyChange c).disjointSets := by
  obtain ⟨h1, h2, h3⟩ := h
  rw [Finset.disjoint_left] at h1 h2 h3
  cases c with
  | insert id =>
      simp only [applyChange]
      refine mk_disjointSets ?_ ?_ ?_
      · intro a ha hu
        rcases Finset.mem_insert.mp ha with rfl | ha
        · exact (Finset.mem_erase.mp hu).1 rfl
        · exact h1 ha (Finset.mem_erase.mp hu).2
      · intro a ha hd
        rcases Finset.mem_insert.mp ha with rfl | ha
        · exact (Finset.mem_erase.mp hd).1 rfl
        · exact h2 ha (Finset.mem_erase.mp hd).2
      · intro a hu hd
        exact h3 (Finset.mem_erase.mp hu).2 (Finset.mem_erase.mp hd).2
  | update id =>
      by_cases hid : id ∈ mc.inserts ∨ id ∈ mc.deletes
      · simp only [applyChange, if_pos hid]
        exact ⟨Finset.disjoint_left.mpr h1, Finset.disjoint_left.mpr h2,
          Finset.disjoint_left.mpr h3⟩
      · obtain ⟨hid1, hid2⟩ := not_or.mp hid
        simp only [applyChange, if_neg hid]
        refine mk_disjointSets ?_ ?_ ?_
        · intro a ha hu
          rcases Finset.mem_insert.mp hu with rfl | hu
          · exact hid1 ha
          · exact h1 ha hu
        · exact fun a ha hd => h2 ha hd
        · intro a hu hd
          rcases Finset.mem_insert.mp hu with rfl | hu
          · exact hid2 hd
          · exact h3 hu hd
  | delete id =>
      by_cases hid : id ∈ mc.inserts
      · simp only [applyChange, if_pos hid]
        refine mk_disjointSets ?_ ?_ ?_
        · exact fun a ha hu => h1 (Finset.mem_erase.mp ha).2 hu
        · exact fun a ha hd => h2 (Finset.mem_erase.mp ha).2 hd
        · exact fun a hu hd => h3 hu hd
      · simp only [applyChange, if_neg hid]
        refine mk_disjointSets ?_ ?_ ?_
        · exact fun a ha hu => h1 ha (Finset.mem_erase.mp hu).2
        · intro a ha hd
          rcases Finset.mem_insert.mp hd with rfl | hd
          · exact hid ha
          · exact h2 ha hd
        · intro a hu hd
          rcases Finset.mem_insert.mp hd with rfl | hd
          · exact (Finset.mem_erase.mp hu).1 rfl
          · exact h3 (Finset.mem_erase.mp hu).2 hd

theorem MergedChanges.foldChanges_disjointSets (mc : MergedChanges)
    (h : mc.disjointSets) (cs : List Change) :
    (cs.foldl MergedChanges.applyChange mc).disjointSets := by
  induction cs generalizing mc with
  | nil => exact h
  | cons c cs ih => exact ih _ (mc.applyChange_disjointSets h c)

theorem mem_ascList (s : Finset Nat) (x : Nat) : x ∈ ascList s ↔ x ∈ s := by
  unfold ascList
  simp only [List.mem_filter, List.mem_range, decide_eq_true_eq]
  constructor
  · exact fun h => h.2
  · intro h
    exact ⟨Nat.lt_succ_of_le (Finset.le_sup (f := id) h), h⟩


theorem gpriStep_nle {key : RaftId} {e : RaftId × Entry} (acc : Option RaftId)
    (h : ¬ raftLe e.1 key) : gpriStep key acc e = acc := by
  unfold gpriStep
  rw [if_neg h]

theorem gpriStep_le_none {key : RaftId} {e : RaftId × Entry} (h : raftLe e.1 key) :
    gpriStep key none e = some e.1 := by
  unfold gpriStep
  rw [if_pos h]

theorem gpriStep_le_some {key : RaftId} {e : RaftId × Entry} (m0 : RaftId)
    (h : raftLe e.1 key) :
    gpriStep key (some m0) e = if raftLe m0 e.1 then some e.1 else some m0 := by
  unfold gpriStep
  rw [if_pos h]

theorem gpriStep_isSome {key : RaftId} {e : RaftId × Entry} (acc : Option RaftId)
    (h : raftLe e.1 key) : ∃ m1, gpriStep key acc e = some m1 := by
  cases acc with
  | none => exact ⟨e.1, gpriStep_le_none h⟩
  | some m0 =>
      rw [gpriStep_le_some m0 h]
      by_cases hm0 : raftLe m0 e.1
      · exact ⟨e.1, if_pos hm0⟩
      · exact ⟨m0, if_neg hm0⟩

theorem gpriStep_some_le {key : RaftId} {acc : Option RaftId}
    (hacc : ∀ m0, acc = some m0 → raftLe m0 key) (e : RaftId × Entry) :
    ∀ m, gpriStep key acc e = some m → raftLe m key := by
  intro m hm
  by_cases hle : raftLe e.1 key
  · cases hacc0 : acc with
    | none =>
        rw [hacc0, gpriStep_le_none hle] at hm
        cases hm
        exact hle
    | some m0 =>
        rw [hacc0, gpriStep_le_some m0 hle] at hm
        by_cases hm0 : raftLe m0 e.1
        · rw [if_pos hm0] at hm; cases hm; exact hle
        · rw [if_neg hm0] at hm; cases hm; exact hacc _ hacc0
  · rw [gpriStep_nle acc hle] at hm
    exact hacc m hm

theorem gpriStep_mono {key : RaftId} {e : RaftId × Entry} (m0 : RaftId) :
    ∀ m1, gpriStep key (some m0) e = some m1 → raftLe m0 m1 := by
  intro m1 h1
  by_cases hle : raftLe e.1 key
  · rw [gpriStep_le_some m0 hle] at h1
    by_cases hm0 : raftLe m0 e.1
    · rw [if_pos hm0] at h1; cases h1; exact hm0
    · rw [if_neg hm0] at h1; cases h1; exact raftLe_refl m0
  · rw [gpriStep_nle _ hle] at h1
    cases h1
    exact raftLe_refl m0

theorem gpriStep_self_le {key : RaftId} {e : RaftId × Entry} (acc : Option RaftId)
    (hle : raftLe e.1 key) :
    ∀ m1, gpriStep key acc e = some m1 → raftLe e.1 m1 := by
  intro m1 h1
  cases acc with
  | none =>
      rw [gpriStep_le_none hle] at h1
      cases h1
      exact raftLe_refl _
  | some m0 =>
      rw [gpriStep_le_some m0 hle] at h1
      by_cases hm0 : raftLe m0 e.1
      · rw [if_pos hm0] at h1; cases h1; exact raftLe_refl _
      · rw [if_neg hm0] at h1
        cases h1
        rcases raftLe_total e.1 m1 with h | h
        · exact h
        · exact absurd h hm0

theorem gpri_fold_spec (key : RaftId) (l : List (RaftId × Entry)) :
    ∀ acc : Option RaftId, (∀ m0, acc = some m0 → raftLe m0 key) →
      (l.foldl (gpriStep key) acc = none →
        acc = none ∧ ∀ e ∈ l, ¬ raftLe e.1 key) ∧
      (∀ m, l.foldl (gpriStep key) acc = some m →
        (acc = some m ∨ ∃ e ∈ l, e.1 = m) ∧ raftLe m key ∧
        (∀ m0, acc = some m0 → raftLe m0 m) ∧
        (∀ e ∈ l, raftLe e.1 key → raftLe e.1 m)) := by
  induction l with
  | nil =>
      intro acc hacc
      refine ⟨fun h => ⟨h, by simp⟩, fun m hm => ?_⟩
      have hacc' : acc = some m := hm
      refine ⟨Or.inl hacc', hacc m hacc', ?_, by simp⟩
      intro m0 h0
      rw [hacc'] at h0
      cases h0
      exact raftLe_refl m
  | cons e t ih =>
      intro acc hacc
      have hacc2 : ∀ m0, gpriStep key acc e = some m0 → raftLe m0 key :=
        fun m0 h0 => gpriStep_some_le hacc e m0 h0
      obtain ⟨ihn, ihs⟩ := ih (gpriStep key acc e) hacc2
      have hstep : (e :: t).foldl (gpriStep key) acc =
          t.foldl (gpriStep key) (gpriStep key acc e) := rfl
      constructor
      · intro h
        rw [hstep] at h
        obtain ⟨h1, h2⟩ := ihn h
        have hle : ¬ raftLe e.1 key := by
          intro hle
          obtain ⟨m1, hm1⟩ := gpriStep_isSome acc hle
          rw [hm1] at h1
          cases h1
        rw [gpriStep_nle acc hle] at h1
        refine ⟨h1, ?_⟩
        intro x hx
        rcases List.mem_cons.mp hx with rfl | hx
        · exact hle
        · exact h2 x hx
      · intro m hm
        rw [hstep] at hm
        obtain ⟨hm1, hm2, hm3, hm4⟩ := ihs m hm
        refine ⟨?_, hm2, ?_, ?_⟩
        · rcases hm1 with hm1 | ⟨x, hx, hxm⟩
          · by_cases hle : raftLe e.1 key
            · cases hacc0 : acc with
              | none =>
                  rw [hacc0, gpriStep_le_none hle] at hm1
                  cases hm1
                  exact Or.inr ⟨e, List.mem_cons_self e t, rfl⟩
              | some m0 =>
                  rw [hacc0, gpriStep_le_some m0 hle] at hm1
                  by_cases hm0 : raftLe m0 e.1
                  · rw [if_pos hm0] at hm1
                    cases hm1
                    exact Or.inr ⟨e, List.mem_cons_self e t, rfl⟩
                  · rw [if_neg hm0] at hm1
                    exact Or.inl hm1
            · rw [gpriStep_nle acc hle] at hm1
              exact Or.inl hm1
          · exact Or.inr ⟨x, List.mem_cons_of_mem e hx, hxm⟩
        · intro m0 h0
          cases h1 : gpriStep key acc e with
          | none =>
              by_cases hle : raftLe e.1 key
              · obtain ⟨m1, hm1⟩ := gpriStep_isSome acc hle
                rw [hm1] at h1
                cases h1
              · rw [gpriStep_nle _ hle, h0] at h1
                cases h1
          | some m1 =>
              have hlt : raftLe m0 m1 := by
                rw [h0] at h1
                exact gpriStep_mono m0 m1 h1
              exact raftLe_trans hlt (hm3 m1 h1)
        · intro x hx hxle
          rcases List.mem_cons.mp hx with rfl | hx
          · obtain ⟨m1, hm1⟩ := gpriStep_isSome acc hxle
            exact raftLe_trans (gpriStep_self_le acc hxle m1 hm1) (hm3 m1 hm1)
          · exact hm4 x hx hxle

theorem get_prev_raft_id_none {db : Db} {key : RaftId}
    (h : get_prev_raft_id db key = none) :
    ∀ e ∈ db.raftLog, ¬ raftLe e.1 key :=
  ((gpri_fold_spec key db.raftLog none (fun _ h0 => by cases h0)).1 h).2

theorem get_prev_raft_id_some {db : Db} {key m : RaftId}
    (h : get_prev_raft_id db key = some m) :
    (∃ e ∈ db.raftLog, e.1 = m) ∧ raftLe m key ∧
      ∀ e ∈ db.raftLog, raftLe e.1 key → raftLe e.1 m := by
  obtain ⟨h1, h2, _, h4⟩ :=
    (gpri_fold_spec key db.raftLog none (fun _ h0 => by cases h0)).2 m h
  rcases h1 with h1 | h1
  · cases h1
  · exact ⟨h1, h2, h4⟩

theorem follower_step_matchRequest (decompress : List Nat → Option (List Nat))
    (node : Node) (last_log : RaftId) :
    follower_step decompress node .synchronize (.matchRequest last_log) =
      (handle_match_log node last_log).map (fun r => (r.1, .synchronize, r.2)) := rfl

/-- Claim C1: in the Synchronize state a Match request is answered with a
Match reply whose match_log is the newest local RaftId at most last_log in
the (term, index) order, or the RaftId sentinel when no stored id
qualifies; in the latter case a sentinel last_log additionally marks the
node up to date; the log database is not modified and the state stays
Synchronize. -/
theorem c1_match_log_reply (decompress : List Nat → Option (List Nat)) (node : Node)
    (last_log : RaftId) :
    ∃ n2 m, follower_step decompress node .synchronize (.matchRequest last_log) =
        some (n2, .synchronize, .matchResponse m) ∧
      (((∃ e ∈ node.db.raftLog, e.1 = m) ∧ raftLe m last_log ∧
          ∀ e ∈ node.db.raftLog, raftLe e.1 last_log → raftLe e.1 m) ∨
        (m = RaftId.noneId ∧ ∀ e ∈ node.db.raftLog, ¬ raftLe e.1 last_log)) ∧
      ((∀ e ∈ node.db.raftLog, ¬ raftLe e.1 last_log) → last_log.is_none = true →
        n2.upToDate = true) ∧
      n2.db = node.db := by
  rw [follower_step_matchRequest]
  unfold handle_match_log
  cases hg : get_prev_raft_id node.db last_log with
  | some matched =>
      refine ⟨{ node with upToDate := decide (matched = last_log) }, matched, rfl, ?_, ?_, rfl⟩
      · exact Or.inl (get_prev_raft_id_some hg)
      · intro hnone _
        obtain ⟨⟨e, he, hem⟩, hle, _⟩ := get_prev_raft_id_some hg
        exact absurd (hem ▸ hle) (hnone e he)
  | none =>
      refine ⟨{ node with upToDate := if last_log.is_none then true else node.upToDate },
        RaftId.noneId, rfl, ?_, ?_, rfl⟩
      · exact Or.inr ⟨rfl, get_prev_raft_id_none hg⟩
      · intro _ hs
        simp only [hs, if_true]

theorem MergedChanges.foldRecords_disjointSets (css : List (List Change))
    (mc : MergedChanges) (h : mc.disjointSets) :
    (css.foldl (fun mc cs => cs.foldl MergedChanges.applyChange mc) mc).disjointSets := by
  induction css generalizing mc with
  | nil => exact h
  | cons cs css ih => exact ih _ (mc.foldChanges_disjointSets h cs)

/-- Claim C4: for every database, account, collection and index range, the
merged changes computed by the merged-changes calculator have pairwise
disjoint inserts, updates and deletes sets. -/
theorem c4_merge_changes_disjoint (db : Db) (account_id : AccountId)
    (collection : Collection) (from_index to_index : LogIndex) :
    (merge_changes db account_id collection from_index to_index).disjointSets := by
  unfold merge_changes
  by_cases hc : collection = .thread
  · rw [if_pos hc]
    exact MergedChanges.empty_disjointSets
  · rw [if_neg hc]
    exact MergedChanges.foldRecords_disjointSets _ _ MergedChanges.empty_disjointSets

/-- Claim C7: a Synchronize request carrying an empty match-terms list,
received in the Synchronize state, produces no reply and ends the follower
event loop: the step function returns none, so no response is sent and no
local state survives the event (the source breaks out of the receive loop
and the task ends). -/
theorem c7_empty_match_terms_aborts (decompress : List Nat → Option (List Nat))
    (node : Node) :
    follower_step decompress node .synchronize (.synchronizeRequest []) = none := rfl

theorem requestUpdatesGo_shape (decompress : List Nat → Option (List Nat))
    (first_id last_id : RaftId) (lci : LogIndex) :
    ∀ (fuel : Nat) (node : Node) (ca : List (AccountId × List Collection))
      (n : Node) (st : FollowerState) (resp : AppendEntriesResponse),
      requestUpdatesGo decompress first_id last_id lci fuel node ca =
        some (n, st, resp) →
      ((∃ i, resp = .commitResponse i ∧ st = .synchronize) ∨
        (∃ a c ch, resp = .updateResponse a c ch ∧
          ch = { merge_changes n.db a c first_id.index last_id.index with
            deletes := ∅ } ∧
          ((merge_changes n.db a c first_id.index last_id.index).deletes ≠ ∅ →
            ∃ seq, ((last_id.index, seq), PendingUpdates.new [.deleteDocuments a c
              (ascList (merge_changes n.db a c first_id.index
                last_id.index).deletes)]) ∈ n.db.pending) ∧
          ∃ f l ca2, st = .appendChanges f l ca2)) := by
  intro fuel
  induction fuel with
  | zero =>
      intro node ca n st resp h
      simp only [requestUpdatesGo] at h
      exact Option.noConfusion h
  | succ fuel ih =>
      intro node ca n st resp h
      match ca with
      | [] =>
          simp only [requestUpdatesGo] at h
          split at h
          · split at h
            · exact absurd h (by simp)
            · rename_i db2 heq
              obtain ⟨rfl, rfl, rfl⟩ := by
                simpa only [Option.some.injEq, Prod.mk.injEq] using h
              exact Or.inl ⟨last_id.index, rfl, rfl⟩
          · obtain ⟨rfl, rfl, rfl⟩ := by
              simpa only [Option.some.injEq, Prod.mk.injEq] using h
            exact Or.inl ⟨last_id.index, rfl, rfl⟩
      | (account_id, []) :: restAccounts =>
          simp only [requestUpdatesGo] at h
          exact ih node restAccounts n st resp h
      | (account_id, collection :: restCollections) :: restAccounts =>
          simp only [requestUpdatesGo] at h
          split at h
          · exact ih node _ n st resp h
          · rename_i hthread
            by_cases hdel : (merge_changes node.db account_id collection first_id.index
                last_id.index).deletes ≠ ∅
            · rw [if_pos hdel] at h
              by_cases hiu : ({ merge_changes node.db account_id collection
                    first_id.index last_id.index with
                    deletes := (∅ : Finset DocumentId) }).inserts ≠ ∅ ∨
                  ({ merge_changes node.db account_id collection first_id.index
                    last_id.index with deletes := (∅ : Finset DocumentId) }).updates ≠ ∅
              · rw [if_pos hiu] at h
                obtain ⟨rfl, rfl, rfl⟩ := by
                  simpa only [Option.some.injEq, Prod.mk.injEq] using h
                refine Or.inr ⟨account_id, collection, _, rfl, rfl, ?_,
                  first_id, last_id, _, rfl⟩
                intro _
                refine ⟨node.changeSeq, List.mem_append_right _ ?_⟩
                simp only [List.mem_singleton, Prod.mk.injEq]
                exact ⟨rfl, rfl⟩
              · rw [if_neg hiu] at h
                exact ih _ _ n st resp h
            · rw [if_neg hdel] at h
              push_neg at hdel
              by_cases hiu : (merge_changes node.db account_id collection
                    first_id.index last_id.index).inserts ≠ ∅ ∨
                  (merge_changes node.db account_id collection first_id.index
                    last_id.index).updates ≠ ∅
              · rw [if_pos hiu] at h
                obtain ⟨rfl, rfl, rfl⟩ := by
                  simpa only [Option.some.injEq, Prod.mk.injEq] using h
                refine Or.inr ⟨account_id, collection, _, rfl, ?_, ?_,
                  first_id, last_id, _, rfl⟩
                · rcases hm : merge_changes node.db account_id collection
                    first_id.index last_id.index with ⟨i, u, d⟩
                  rw [hm] at hdel
                  simp only at hdel
                  rw [hdel]
                · intro hc
                  exact absurd hdel hc
              · rw [if_neg hiu] at h
                exact ih _ _ n st resp h

/-- Claim C10: every Update reply produced by the request_updates drain
carries merged changes whose deletes set is empty; the reply equals the
merged changes of the pair with deletes cleared, and whenever that merge
contained deletes a DeleteDocuments pending update holding them was durably
staged before the reply was produced. -/
theorem c10_update_reply_deletes_staged (decompress : List Nat → Option (List Nat))
    (node : Node) (first_id last_id : RaftId) (lci : LogIndex)
    (ca : List (AccountId × List Collection)) (n : Node) (st : FollowerState)
    (a : AccountId) (c : Collection) (ch : MergedChanges)
    (h : request_updates decompress node first_id last_id lci ca =
      some (n, st, .updateResponse a c ch)) :
    ch.deletes = ∅ ∧
      ch = { merge_changes n.db a c first_id.index last_id.index with deletes := ∅ } ∧
      ((merge_changes n.db a c first_id.index last_id.index).deletes ≠ ∅ →
        ∃ seq, ((last_id.index, seq), PendingUpdates.new [.deleteDocuments a c
          (ascList (merge_changes n.db a c first_id.index last_id.index).deletes)]) ∈
            n.db.pending) := by
  rcases requestUpdatesGo_shape decompress first_id last_id lci _ node ca n st _ h with
    ⟨i, hi, _⟩ | ⟨a2, c2, ch2, he, hch, hst, _⟩
  · cases hi
  · cases he
    exact ⟨by rw [hch], hch, hst⟩

/-- Witness for claim C10 at a concrete store whose change record carries
both an insert and a delete. -/
theorem c10_update_reply_witness : (⟨{7}, ∅, ∅⟩ : MergedChanges).deletes = ∅ :=
  (c10_update_reply_deletes_staged (fun b => some b)
    ⟨⟨[], [(⟨1, .mail, 2⟩, [.insert 7, .delete 9])], [], none, [], fun _ => none⟩,
      false, 0, 0⟩
    ⟨1, 1⟩ ⟨1, 2⟩ 2 [(1, [.mail])]
    ⟨⟨[], [(⟨1, .mail, 2⟩, [.insert 7, .delete 9])],
      [((2, 0), PendingUpdates.new [.deleteDocuments 1 .mail [9]])], none, [],
      fun _ => none⟩, false, 1, 0⟩
    (.appendChanges ⟨1, 1⟩ ⟨1, 2⟩ [(1, [])]) 1 .mail ⟨{7}, ∅, ∅⟩ rfl).1

/-- Claim C9 (amended): an Update message whose updates vector is empty,
received in the Synchronize or AppendEntries state, is treated as a
terminated batch even though no Eof marker is present: handle_update_log
proceeds straight to the drain of the dirty pairs, and the reply is a
Commit returning the machine to Synchronize, or an Update parking it in
AppendChanges when a drained pair still carries inserts or updates; it
never remains in AppendEntries replying Continue. -/
theorem c9_empty_updates_drain (decompress : List Nat → Option (List Nat))
    (node : Node) (first_id last_id : RaftId) (lci : LogIndex)
    (ca : List (AccountId × List Collection)) :
    handle_update_log decompress node first_id last_id lci ca [] =
      request_updates decompress node first_id last_id lci ca ∧
    ∀ n st resp, handle_update_log decompress node first_id last_id lci ca [] =
        some (n, st, resp) →
      ((∃ i, resp = .commitResponse i ∧ st = .synchronize) ∨
        (∃ a c ch f l ca2, resp = .updateResponse a c ch ∧
          st = .appendChanges f l ca2)) := by
  have heq : handle_update_log decompress node first_id last_id lci ca [] =
      request_updates decompress node first_id last_id lci ca := rfl
  refine ⟨heq, ?_⟩
  intro n st resp h
  rw [heq] at h
  rcases requestUpdatesGo_shape decompress first_id last_id lci _ node ca n st resp h with
    ⟨i, hi, hst⟩ | ⟨a, c, ch, he, _, _, f, l, ca2, hst⟩
  · exact Or.inl ⟨i, hi, hst⟩
  · exact Or.inr ⟨a, c, ch, f, l, ca2, he, hst⟩

/-- Witness for claim C9: with an empty work list the drain is entered and
replies Commit. -/
theorem c9_empty_updates_witness :
    handle_update_log (fun b => some b)
      ⟨⟨[], [], [], none, [], fun _ => none⟩, false, 0, 0⟩ RaftId.noneId RaftId.noneId
      5 [] [] =
    request_updates (fun b => some b)
      ⟨⟨[], [], [], none, [], fun _ => none⟩, false, 0, 0⟩ RaftId.noneId RaftId.noneId
      5 [] :=
  (c9_empty_updates_drain (fun b => some b)
    ⟨⟨[], [], [], none, [], fun _ => none⟩, false, 0, 0⟩ RaftId.noneId RaftId.noneId
    5 []).1

/-- Counterexample for claim C9 as stated: in the AppendEntries state with
a dirty pair whose merged changes contain an insert, an Update message with
an empty updates vector is answered with an Update reply, not with a Commit
(and not with a Continue). -/
theorem c9_empty_updates_counterexample :
    (follower_step (fun b => some b)
        ⟨⟨[], [(⟨1, .mail, 2⟩, [.insert 7])], [], none, [], fun _ => none⟩,
          false, 0, 0⟩
        (.appendEntries ⟨1, 1⟩ ⟨1, 2⟩ [(1, [.mail])]) (.updateRequest 2 [])).map
      (fun r => (respIsCommit r.2.2, respIsContinue r.2.2, r.2.2)) =
      some (false, false, .updateResponse 1 .mail ⟨{7}, ∅, ∅⟩) := by decide

theorem getLastD_cons (a : RaftId) (l : List RaftId) (x : RaftId) :
    ((a :: l).getLast?.getD x) = l.getLast?.getD a := by
  cases l with
  | nil => rfl
  | cons b t =>
      rw [List.getLast?_cons_cons]
      obtain ⟨y, hy⟩ := Option.isSome_iff_exists.mp
        (List.getLast?_isSome.mpr (List.cons_ne_nil b t))
      rw [hy]
      rfl

theorem scan_foldl_last (updates : List Update) :
    ∀ acc : ScanAcc, (updates.foldl scanStep acc).last_id =
      (logIdsOf updates).getLast?.getD acc.last_id := by
  induction updates with
  | nil => intro acc; rfl
  | cons u rest ih =>
      intro acc
      cases u with
      | change account_id collection change => exact ih _
      | log raft_id e =>
          have h1 : logIdsOf (.log raft_id e :: rest) = raft_id :: logIdsOf rest := rfl
          rw [List.foldl_cons, ih, h1, getLastD_cons]
          rfl
      | document a d u => exact ih _
      | eof => exact ih _

theorem scan_foldl_first (updates : List Update)
    (hns : ∀ rid ∈ logIdsOf updates, rid.is_none = false) :
    ∀ acc : ScanAcc, (updates.foldl scanStep acc).first_id =
      (if acc.first_id.is_none then (logIdsOf updates).head?.getD acc.first_id
        else acc.first_id) := by
  induction updates with
  | nil =>
      intro acc
      by_cases h : acc.first_id.is_none
      · rw [if_pos h]; rfl
      · rw [if_neg h]; rfl
  | cons u rest ih =>
      intro acc
      cases u with
      | change account_id collection change =>
          exact ih (fun rid hrid => hns rid hrid) _
      | log raft_id e =>
          have h1 : logIdsOf (.log raft_id e :: rest) = raft_id :: logIdsOf rest := rfl
          have hrn : raft_id.is_none = false :=
            hns raft_id (by rw [h1]; exact List.mem_cons_self _ _)
          have hrest : ∀ rid ∈ logIdsOf rest, rid.is_none = false := by
            intro rid hrid
            exact hns rid (by rw [h1]; exact List.mem_cons_of_mem _ hrid)
          rw [List.foldl_cons, ih hrest]
          by_cases h : acc.first_id.is_none
          · have hstep : (scanStep acc (.log raft_id e)).first_id = raft_id := by
              simp only [scanStep, h, if_true]
            rw [hstep, if_pos h, hrn]
            simp only [Bool.false_eq_true, if_false]
            rfl
          · have hstep : (scanStep acc (.log raft_id e)).first_id = acc.first_id := by
              simp only [scanStep, h]
              rfl
            rw [hstep, if_neg h, if_neg h]
      | document a d u => exact ih (fun rid hrid => hns rid hrid) _
      | eof => exact ih (fun rid hrid => hns rid hrid) _

theorem scan_foldl_batch (updates : List Update) :
    ∀ acc : ScanAcc, (updates.foldl scanStep acc).log_batch =
      acc.log_batch ++ batchSpec acc.last_id updates := by
  induction updates with
  | nil => intro acc; simp [batchSpec]
  | cons u rest ih =>
      intro acc
      cases u with
      | change account_id collection change =>
          rw [List.foldl_cons, ih]
          simp [scanStep, batchSpec]
      | log raft_id e =>
          rw [List.foldl_cons, ih]
          simp [scanStep, batchSpec]
      | document a d u =>
          rw [List.foldl_cons, ih]
          simp [scanStep, batchSpec]
      | eof =>
          rw [List.foldl_cons, ih]
          simp [scanStep, batchSpec]

theorem scan_foldl_done (updates : List Update) :
    ∀ acc : ScanAcc, (updates.foldl scanStep acc).is_done =
      (acc.is_done || updates.any (fun u => decide (u = .eof))) := by
  induction updates with
  | nil => intro acc; simp
  | cons u rest ih =>
      intro acc
      cases u with
      | change account_id collection change =>
          rw [List.foldl_cons, ih]
          simp [scanStep]
      | log raft_id e =>
          rw [List.foldl_cons, ih]
          simp [scanStep]
      | document a d u =>
          rw [List.foldl_cons, ih]
          simp [scanStep]
      | eof =>
          rw [List.foldl_cons, ih]
          simp [scanStep]

/-- Claim C2 (amended): for every Update message handled in the Synchronize
or AppendEntries state, the accumulated log batch keys each Change record
by the raft id of the closest preceding Log item (the incoming, not yet
final, last id when none precedes it), the scan adopts the last streamed
Log id as the new last id and the first streamed Log id as the first id
when the incoming one was the sentinel; and the follower remains in
AppendEntries with the scanned ids and changed accounts and replies
Continue exactly when the updates vector is non-empty and carries no Eof
marker. -/
theorem c2_update_log_stream (decompress : List Nat → Option (List Nat)) (node : Node)
    (first_id last_id : RaftId) (lci : LogIndex)
    (ca : List (AccountId × List Collection)) (updates : List Update)
    (hns : ∀ rid ∈ logIdsOf updates, rid.is_none = false) :
    (updateLogScan first_id last_id ca updates).log_batch =
      batchSpec last_id updates ∧
    (updateLogScan first_id last_id ca updates).last_id =
      (logIdsOf updates).getLast?.getD last_id ∧
    (updateLogScan first_id last_id ca updates).first_id =
      (if first_id.is_none then (logIdsOf updates).head?.getD first_id
        else first_id) ∧
    ((∃ n, handle_update_log decompress node first_id last_id lci ca updates =
        some (n, .appendEntries (updateLogScan first_id last_id ca updates).first_id
          (updateLogScan first_id last_id ca updates).last_id
          (updateLogScan first_id last_id ca updates).changed_accounts,
          .continueResponse)) ↔
      (updates ≠ [] ∧ .eof ∉ updates)) := by
  have hbatch : (updateLogScan first_id last_id ca updates).log_batch =
      [] ++ batchSpec last_id updates :=
    scan_foldl_batch updates ⟨first_id, last_id, [], ca, updates.isEmpty⟩
  have hlast : (updateLogScan first_id last_id ca updates).last_id =
      (logIdsOf updates).getLast?.getD last_id :=
    scan_foldl_last updates ⟨first_id, last_id, [], ca, updates.isEmpty⟩
  have hfirst : (updateLogScan first_id last_id ca updates).first_id =
      (if first_id.is_none then (logIdsOf updates).head?.getD first_id
        else first_id) :=
    scan_foldl_first updates hns ⟨first_id, last_id, [], ca, updates.isEmpty⟩
  have hdone : (updateLogScan first_id last_id ca updates).is_done =
      (updates.isEmpty || updates.any (fun u => decide (u = .eof))) :=
    scan_foldl_done updates ⟨first_id, last_id, [], ca, updates.isEmpty⟩
  have hrhs : (updates.isEmpty || updates.any (fun u => decide (u = .eof))) = false ↔
      (updates ≠ [] ∧ .eof ∉ updates) := by
    rw [Bool.or_eq_false_iff]
    constructor
    · rintro ⟨h1, h2⟩
      refine ⟨?_, ?_⟩
      · intro hc
        rw [hc] at h1
        cases h1
      · intro hm
        have htrue : updates.any (fun u => decide (u = .eof)) = true :=
          List.any_eq_true.mpr ⟨.eof, hm, by simp⟩
        rw [htrue] at h2
        cases h2
    · rintro ⟨h1, h2⟩
      refine ⟨?_, ?_⟩
      · cases updates with
        | nil => exact absurd rfl h1
        | cons a l => rfl
      · rw [← Bool.not_eq_true, List.any_eq_true]
        rintro ⟨u, hu, hue⟩
        rw [decide_eq_true_eq] at hue
        rw [hue] at hu
        exact h2 hu
  refine ⟨by rw [hbatch, List.nil_append], hlast, hfirst, ?_⟩
  constructor
  · rintro ⟨n, hn⟩
    by_cases hd : (updateLogScan first_id last_id ca updates).is_done
    · simp only [handle_update_log, hd, if_true] at hn
      rcases requestUpdatesGo_shape decompress _ _ lci _ _ _ n _ _ hn with
        ⟨i, hi, _⟩ | ⟨a, c, ch, he, _, _, _, _, _, _⟩
      · exact absurd hi (fun hc => AppendEntriesResponse.noConfusion hc)
      · exact absurd he (fun hc => AppendEntriesResponse.noConfusion hc)
    · rw [← hrhs, ← Bool.not_eq_true]
      intro hc
      rw [← hdone] at hc
      exact hd hc
  · intro hrt
    have hd : (updateLogScan first_id last_id ca updates).is_done = false := by
      rw [hdone]
      exact hrhs.mpr hrt
    refine ⟨{ node with db := (updateLogScan first_id last_id ca
      updates).log_batch.foldl applyLogWrite node.db }, ?_⟩
    simp only [handle_update_log, hd]
    rfl

/-- Witness for claim C2 at a concrete two-item stream, a Log item followed
by a Change record keyed under its index. -/
theorem c2_update_log_witness :
    (updateLogScan RaftId.noneId RaftId.noneId []
        [.log ⟨1, 1⟩ (.item 1 [.mail]), .change 1 .mail [.insert 7]]).log_batch =
      batchSpec RaftId.noneId
        [.log ⟨1, 1⟩ (.item 1 [.mail]), .change 1 .mail [.insert 7]] :=
  (c2_update_log_stream (fun b => some b)
    ⟨⟨[], [], [], none, [], fun _ => none⟩, false, 0, 0⟩ RaftId.noneId RaftId.noneId 5
    [] [.log ⟨1, 1⟩ (.item 1 [.mail]), .change 1 .mail [.insert 7]] (by decide)).1

/-- Counterexample for claim C2 as stated: an Update message with an empty
updates vector is not terminated by an Eof marker, yet the follower does
not remain in AppendEntries and does not reply Continue; it replies
Commit. -/
theorem c2_empty_batch_counterexample :
    (follower_step (fun b => some b)
        ⟨⟨[], [], [], none, [], fun _ => none⟩, false, 0, 0⟩ .synchronize
        (.updateRequest 5 [])).map
      (fun r => (respIsContinue r.2.2, stateIsAppendEntries r.2.1, r.2.2)) =
      some (false, false, .commitResponse logIndexMax) := by decide

theorem mem_insertSortedBy {α : Type} (le : α → α → Bool) (x a : α) (l : List α) :
    a ∈ insertSortedBy le x l ↔ a = x ∨ a ∈ l := by
  induction l with
  | nil => simp [insertSortedBy]
  | cons y ys ih =>
      unfold insertSortedBy
      by_cases h : le x y = true
      · rw [if_pos h]
        simp only [List.mem_cons]
      · rw [if_neg h]
        simp only [List.mem_cons, ih]
        tauto

theorem mem_sortedBy {α : Type} (le : α → α → Bool) (a : α) (l : List α) :
    a ∈ sortedBy le l ↔ a ∈ l := by
  induction l with
  | nil => simp [sortedBy]
  | cons y ys ih =>
      unfold sortedBy at *
      rw [List.foldr_cons, mem_insertSortedBy, ih, List.mem_cons]

theorem pendingScan_reset_kept (decompress : List Nat → Option (List Nat))
    (eff : LogIndex) :
    ∀ (l : List ((LogIndex × Nat) × PendingUpdates)) (docs : DocStore)
      (d2 : DocStore) (kept : List ((LogIndex × Nat) × PendingUpdates)),
      pendingScan decompress eff true docs l = some (d2, kept) → kept = [] := by
  intro l
  induction l with
  | nil =>
      intro docs d2 kept h
      obtain ⟨_, h2⟩ := by simpa only [pendingScan, Option.some.injEq, Prod.mk.injEq] using h
      exact h2.symm
  | cons e rest ih =>
      intro docs d2 kept h
      simp only [pendingScan] at h
      split at h
      · split at h
        · rename_i docs2 heq
          exact ih docs2 d2 kept h
        · exact Option.noConfusion h
      · exact ih docs d2 kept h

/-- Claim C3 (amended): when apply_pending_updates is invoked with the
reset flag and an explicit cutoff index, every staged pending-update entry
is removed (entries at or before the cutoff being applied first) together
with the last-applied marker, and the raft log entries strictly after the
cutoff are deleted together with the change records inferred from the
entries being removed, for both the Item and the Snapshot variants; raft
entries at or before the cutoff are kept. -/
theorem c3_reset_drops_strict_suffix (decompress : List Nat → Option (List Nat))
    (db : Db) (apply_up_to : LogIndex) (db2 : Db) (b : Bool)
    (hc : apply_up_to ≠ logIndexMax)
    (h : apply_pending_updates decompress db apply_up_to true = some (db2, b)) :
    db2.pending = [] ∧ db2.lastApplied = none ∧
    db2.raftLog = db.raftLog.filter (fun e => decide (e.1.index ≤ apply_up_to)) ∧
    db2.changes = db.changes.filter (fun e =>
      !(db.raftLog.any (fun d => decide (apply_up_to < d.1.index) &&
        decide (e.1 ∈ entryChangeKeys d.1 d.2)))) := by
  simp only [apply_pending_updates, if_pos hc] at h
  set dbm := { db with lastApplied := some apply_up_to } with hdbm
  cases hps : pendingScan decompress apply_up_to true dbm.docs
      (sortedBy pendingKeyLe dbm.pending) with
  | none => rw [hps] at h; exact Option.noConfusion h
  | some r =>
      obtain ⟨docs2, kept⟩ := r
      have hkept : kept = [] :=
        pendingScan_reset_kept decompress apply_up_to _ _ _ _ hps
      rw [hps] at h
      simp only [if_pos hc] at h
      rw [if_pos trivial, Option.some.injEq, Prod.mk.injEq] at h
      obtain ⟨hdb2, hb⟩ := h
      rw [← hdb2]
      refine ⟨hkept, rfl, ?_, ?_⟩
      · show db.raftLog.filter _ = db.raftLog.filter _
        apply List.filter_congr
        intro e he
        by_cases hle : e.1.index ≤ apply_up_to
        · rw [decide_eq_true hle]
          simp only [Bool.not_eq_true']
          rw [List.any_eq_false]
          intro d hd
          obtain ⟨hd1, hd2⟩ := by
            simpa only [List.mem_filter, Bool.or_eq_true, decide_eq_true_eq] using hd
          simp only [Bool.and_eq_true, decide_eq_true_eq] at hd2 ⊢
          rcases hd2 with hfalse | hgt
          · exact absurd hfalse hc
          · intro hdeq
            rw [hdeq] at hgt
            exact absurd hle (not_le.mpr hgt)
        · have hgt : apply_up_to < e.1.index := not_le.mp hle
          rw [decide_eq_false hle]
          rw [Bool.not_eq_false']
          rw [List.any_eq_true]
          refine ⟨e, ?_, ?_⟩
          · rw [List.mem_filter]
            refine ⟨?_, ?_⟩
            · rw [List.mem_filter]
              exact ⟨(mem_sortedBy raftKeyLe e db.raftLog).mpr he,
                decide_eq_true (le_of_lt hgt)⟩
            · simp only [Bool.or_eq_true, decide_eq_true_eq]
              exact Or.inr hgt
          · exact decide_eq_true rfl
      · show db.changes.filter _ = db.changes.filter _
        apply List.filter_congr
        intro e he
        have hiff : ((((sortedBy raftKeyLe db.raftLog).filter
              (fun d => decide (apply_up_to ≤ d.1.index))).filter
              (fun d => decide (apply_up_to = logIndexMax) ||
                decide (apply_up_to < d.1.index))).flatMap
              (fun d => entryChangeKeys d.1 d.2)).any
              (fun k => decide (k = e.1)) =
            db.raftLog.any (fun d => decide (apply_up_to < d.1.index) &&
              decide (e.1 ∈ entryChangeKeys d.1 d.2)) := by
          rw [Bool.eq_iff_iff, List.any_eq_true, List.any_eq_true]
          constructor
          · rintro ⟨k, hk, hke⟩
            rw [decide_eq_true_eq] at hke
            subst hke
            obtain ⟨d, hd, hkd⟩ := List.mem_flatMap.mp hk
            obtain ⟨hd1, hd2⟩ := by
              simpa only [List.mem_filter, Bool.or_eq_true, decide_eq_true_eq] using hd
            obtain ⟨hd3, _⟩ := hd1
            rcases hd2 with hfalse | hgt
            · exact absurd hfalse hc
            · refine ⟨d, (mem_sortedBy raftKeyLe d db.raftLog).mp hd3, ?_⟩
              simp only [Bool.and_eq_true, decide_eq_true_eq]
              exact ⟨hgt, hkd⟩
          · rintro ⟨d, hd, hdd⟩
            simp only [Bool.and_eq_true, decide_eq_true_eq] at hdd
            obtain ⟨hgt, hkmem⟩ := hdd
            refine ⟨e.1, ?_, decide_eq_true rfl⟩
            rw [List.mem_flatMap]
            refine ⟨d, ?_, hkmem⟩
            rw [List.mem_filter]
            refine ⟨?_, ?_⟩
            · rw [List.mem_filter]
              exact ⟨(mem_sortedBy raftKeyLe d db.raftLog).mpr hd,
                decide_eq_true (le_of_lt hgt)⟩
            · simp only [Bool.or_eq_true, decide_eq_true_eq]
              exact Or.inr hgt
        rw [hiff]

/-- Witness for claim C3 at a concrete database: after a reset at cutoff 5
the staged entry, the marker, the raft entry at index 6 and its change
record are gone, while the entry at index 5 survives. -/
theorem c3_reset_witness :
    (⟨[(⟨1, 5⟩, Entry.item 1 [.mail])], [(⟨1, .mail, 5⟩, [Change.insert 1])],
      [], none, [], fun _ => none⟩ : Db).pending = [] :=
  (c3_reset_drops_strict_suffix (fun b => some b)
    ⟨[(⟨1, 5⟩, Entry.item 1 [.mail]), (⟨1, 6⟩, Entry.item 1 [.mail])],
      [(⟨1, .mail, 5⟩, [Change.insert 1]), (⟨1, .mail, 6⟩, [Change.insert 2])],
      [((7, 0), PendingUpdates.new [])], some 3, [], fun _ => none⟩ 5
    ⟨[(⟨1, 5⟩, Entry.item 1 [.mail])], [(⟨1, .mail, 5⟩, [Change.insert 1])],
      [], none, [], fun _ => none⟩ true (by decide) rfl).1

/-- Counterexample for claim C3 as stated: invoked with the reset flag and
cutoff index 5, apply_pending_updates leaves the raft log entry at index 5
(at the cutoff) and its associated change record in place, contradicting
the claim that entries at or before the cutoff are deleted. -/
theorem c3_reset_counterexample :
    (apply_pending_updates (fun b => some b)
      ⟨[(⟨1, 5⟩, Entry.item 1 [.mail])], [(⟨1, .mail, 5⟩, [Change.insert 1])],
        [], some 3, [], fun _ => none⟩ 5 true).map
      (fun r => (r.1.raftLog, r.1.changes)) =
    some ([(⟨1, 5⟩, Entry.item 1 [.mail])], [(⟨1, .mail, 5⟩, [Change.insert 1])]) := by
  decide

theorem getDoc_delDoc (s : DocStore) (k0 k : DocKey) :
    getDoc (delDoc s k0) k = if k = k0 then none else getDoc s k := rfl

theorem getDoc_setDoc (s : DocStore) (k0 k : DocKey) (v : DocVal) :
    getDoc (setDoc s k0 v) k = if k = k0 then some v else getDoc s k := rfl

theorem foldl_delete_document (collection : Collection) :
    ∀ (l : List DocumentId) (a : AccountId) (ops : List BatchOp),
      l.foldl (fun b id => b.delete_document collection id)
          (⟨a, ops⟩ : WriteBatch) =
        ⟨a, ops ++ l.map (BatchOp.deleteDocument collection)⟩ := by
  intro l
  induction l with
  | nil => intro a ops; simp
  | cons id t ih =>
      intro a ops
      rw [List.foldl_cons]
      show t.foldl (fun b id => b.delete_document collection id)
        (⟨a, ops ++ [.deleteDocument collection id]⟩ : WriteBatch) = _
      rw [ih]
      simp

theorem writeBatch_deletes (a : AccountId) (c : Collection) :
    ∀ (l : List DocumentId) (s : DocStore) (k : DocKey),
      getDoc (writeBatch s ⟨a, l.map (BatchOp.deleteDocument c)⟩) k =
        if k.1 = a ∧ k.2.1 = c ∧ k.2.2 ∈ l then none else getDoc s k := by
  intro l
  induction l with
  | nil =>
      intro s k
      rw [if_neg (by simp)]
      rfl
  | cons id t ih =>
      intro s k
      have hstep : getDoc (writeBatch s ⟨a, (id :: t).map (BatchOp.deleteDocument c)⟩) k =
          getDoc (writeBatch (delDoc s (a, c, id)) ⟨a, t.map (BatchOp.deleteDocument c)⟩) k :=
        rfl
      rw [hstep, ih, getDoc_delDoc]
      obtain ⟨ka, kc, kd⟩ := k
      by_cases h1 : ka = a ∧ kc = c ∧ kd ∈ id :: t
      · rw [if_pos h1]
        obtain ⟨rfl, rfl, hd⟩ := h1
        by_cases h2 : (ka, kc, kd).1 = ka ∧ (ka, kc, kd).2.1 = kc ∧ (ka, kc, kd).2.2 ∈ t
        · rw [if_pos h2]
        · rw [if_neg h2]
          rcases List.mem_cons.mp hd with rfl | hd2
          · rw [if_pos rfl]
          · exact absurd ⟨rfl, rfl, hd2⟩ h2
      · rw [if_neg h1]
        have h2 : ¬(ka = a ∧ kc = c ∧ kd ∈ t) := by
          intro hx
          exact h1 ⟨hx.1, hx.2.1, List.mem_cons_of_mem _ hx.2.2⟩
        rw [if_neg h2]
        rw [if_neg (by
          intro hx
          obtain ⟨rfl, rfl, rfl⟩ := by
            simpa only [Prod.mk.injEq] using hx
          exact h1 ⟨rfl, rfl, List.mem_cons_self _ _⟩)]

/-- Claim C6 (amended): in the Rollback state over a collection other than
Thread and with non-empty speculative inserts, a single Update event with
an empty updates payload deletes every document id of changes.inserts from
the local store and clears the inserts set, while the updates and deletes
sets, the rollback bookkeeping and the pending queue are untouched: the
machine stays in Rollback over the same pair with inserts cleared, replying
Update, before any progress on updates or deletes. -/
theorem c6_rollback_clears_inserts (decompress : List Nat → Option (List Nat))
    (node : Node) (account_id : AccountId) (collection : Collection)
    (changes : MergedChanges)
    (hthread : collection ≠ .thread) (hins : changes.inserts ≠ ∅)
    (hwork : changes.updates ≠ ∅ ∨ changes.deletes ≠ ∅) :
    (handle_rollback_updates decompress node account_id collection changes []).map
        (fun r => (r.2.1, r.2.2)) =
      some (.rollback account_id collection ⟨∅, changes.updates, changes.deletes⟩,
        .updateResponse account_id collection ⟨∅, changes.updates, changes.deletes⟩) ∧
    (∀ d ∈ changes.inserts,
      (handle_rollback_updates decompress node account_id collection changes []).map
        (fun r => getDoc r.1.db.docs (account_id, collection, d)) = some none) ∧
    (∀ k : DocKey, ¬(k.1 = account_id ∧ k.2.1 = collection ∧ k.2.2 ∈ changes.inserts) →
      (handle_rollback_updates decompress node account_id collection changes []).map
        (fun r => getDoc r.1.db.docs k) = some (getDoc node.db.docs k)) ∧
    (handle_rollback_updates decompress node account_id collection changes []).map
        (fun r => (r.1.db.rollbacks, r.1.db.pending)) =
      some (node.db.rollbacks, node.db.pending) := by
  have hb := foldl_delete_document collection (ascList changes.inserts) account_id []
  have hred : handle_rollback_updates decompress node account_id collection changes [] =
      some ({ node with db := { node.db with docs := writeBatch node.db.docs (WriteBatch.mk account_id ((ascList changes.inserts).map (BatchOp.deleteDocument collection))) } },
        .rollback account_id collection ⟨∅, changes.updates, changes.deletes⟩,
        .updateResponse account_id collection ⟨∅, changes.updates, changes.deletes⟩) := by
    show handleRollbackGo decompress (node.db.rollbacks.length + 1 + 1) node account_id
      collection changes [] = _
    simp only [handleRollbackGo, if_neg hthread, if_pos hins, WriteBatch.new, hb]
    rw [if_neg (fun hc : ([] : List Update) ≠ [] => hc rfl)]
    show (if changes.deletes ≠ ∅ ∨ changes.updates ≠ ∅ then _ else _) = _
    rw [if_pos hwork.symm]
    rfl
  refine ⟨?_, ?_, ?_, ?_⟩
  · rw [hred]
    rfl
  · intro d hd
    rw [hred]
    show some (getDoc (writeBatch node.db.docs (WriteBatch.mk account_id ((ascList changes.inserts).map (BatchOp.deleteDocument collection)))) (account_id, collection, d)) = some none
    rw [writeBatch_deletes]
    rw [if_pos ⟨rfl, rfl, (mem_ascList _ _).mpr hd⟩]
  · intro k hk
    rw [hred]
    show some (getDoc (writeBatch node.db.docs (WriteBatch.mk account_id ((ascList changes.inserts).map (BatchOp.deleteDocument collection)))) k) = some (getDoc node.db.docs k)
    rw [writeBatch_deletes]
    rw [if_neg (fun hx => hk ⟨hx.1, hx.2.1, (mem_ascList _ _).mp hx.2.2⟩)]
  · rw [hred]
    rfl

/-- Witness for claim C6: with a mail document present and a speculative
insert recorded for it, one empty Update event in the Rollback state leaves
the store without that document. -/
theorem c6_rollback_witness :
    (handle_rollback_updates (fun b => some b)
        ⟨⟨[], [], [], none, [(1, .mail, ⟨{5}, {6}, ∅⟩)],
          fun k => if k = (1, .mail, 5) then some .otherDoc else none⟩, false, 0, 0⟩
        1 .mail ⟨{5}, {6}, ∅⟩ []).map
      (fun r => getDoc r.1.db.docs (1, .mail, 5)) = some none :=
  (c6_rollback_clears_inserts (fun b => some b)
    ⟨⟨[], [], [], none, [(1, .mail, ⟨{5}, {6}, ∅⟩)],
      fun k => if k = (1, .mail, 5) then some .otherDoc else none⟩, false, 0, 0⟩
    1 .mail ⟨{5}, {6}, ∅⟩ (by decide) (by decide)
    (Or.inl (by decide))).2.1 5 (by decide)

/-- Counterexample for claim C6 as stated: over the Thread collection the
inserts set is discarded without deleting anything from the store; after
one empty Update event the speculative document is still present, the
rollback entry is simply dropped and the machine replies Match. -/
theorem c6_thread_counterexample :
    (handle_rollback_updates (fun b => some b)
        ⟨⟨[(⟨1, 1⟩, .item 1 [.mail])], [], [], none, [],
          fun k => if k = (1, .thread, 5) then some .otherDoc else none⟩, false, 0, 0⟩
        1 .thread ⟨{5}, ∅, ∅⟩ []).map
      (fun r => (getDoc r.1.db.docs (1, .thread, 5), r.2.2)) =
      some (some .otherDoc, .matchResponse ⟨1, 1⟩) := by decide

/-- Counterexample for claim C5 as stated: a staged batch carrying two mail
updates for the same document is not idempotent, because tag differences
are computed against the store as it was before the deferred batch write.
After one application the document carries mailboxes ten and twenty; after
a second application of the same batch it carries none. -/
theorem c5_twice_counterexample :
    ((applyPendingUpdateList (fun b => some b)
        (fun k => if k = (1, .mail, 0) then some (.mail ⟨{30}, ∅, {1}, [], 0⟩)
          else none)
        (WriteBatch.new accountIdMax)
        [.updateDocument 1 0 (.updateMail 1 ∅ {10}),
         .updateDocument 1 0 (.updateMail 1 ∅ {20})]).bind
      (fun s1 => (applyPendingUpdateList (fun b => some b) s1
          (WriteBatch.new accountIdMax)
          [.updateDocument 1 0 (.updateMail 1 ∅ {10}),
           .updateDocument 1 0 (.updateMail 1 ∅ {20})]).map
        (fun s2 => (getDoc s1 (1, .mail, 0), getDoc s2 (1, .mail, 0))))) =
      some (some (.mail ⟨{10, 20}, ∅, {1}, [], 0⟩),
        some (.mail ⟨∅, ∅, {1}, [], 0⟩)) := by
  decide

theorem writeBatch_nil_ops (s : DocStore) (a : AccountId) : writeBatch s ⟨a, []⟩ = s := rfl

theorem writeBatch_empty (s : DocStore) (b : WriteBatch) (h : b.is_empty = true) :
    writeBatch s b = s := by
  obtain ⟨a, ops⟩ := b
  cases ops with
  | nil => rfl
  | cons o t => simp [WriteBatch.is_empty] at h

theorem writeBatch_cons (s : DocStore) (a : AccountId) (op : BatchOp) (ops : List BatchOp) :
    writeBatch s ⟨a, op :: ops⟩ = writeBatch (applyBatchOp a s op) ⟨a, ops⟩ := rfl

theorem writeBatch_append_ops (s : DocStore) (a : AccountId) (ops1 ops2 : List BatchOp) :
    writeBatch s ⟨a, ops1 ++ ops2⟩ = writeBatch (writeBatch s ⟨a, ops1⟩) ⟨a, ops2⟩ := by
  unfold writeBatch
  exact List.foldl_append ..

theorem getDoc_applyBatchOp_ne (a : AccountId) (s : DocStore) (op : BatchOp) (k : DocKey)
    (hk : k ≠ opKey a op) : getDoc (applyBatchOp a s op) k = getDoc s k := by
  cases op with
  | insertDocument c d v =>
      rw [show opKey a (.insertDocument c d v) = (a, c, d) from rfl] at hk
      show getDoc (setDoc s (a, c, d) v) k = getDoc s k
      rw [getDoc_setDoc, if_neg hk]
  | updateDocument c d delta =>
      rw [show opKey a (.updateDocument c d delta) = (a, c, d) from rfl] at hk
      simp only [applyBatchOp]
      split
      · rw [getDoc_setDoc, if_neg hk]
      · rfl
      · rw [getDoc_setDoc, if_neg hk]
  | deleteDocument c d =>
      rw [show opKey a (.deleteDocument c d) = (a, c, d) from rfl] at hk
      show getDoc (delDoc s (a, c, d)) k = getDoc s k
      rw [getDoc_delDoc, if_neg hk]

theorem getDoc_writeBatch_ne (a : AccountId) (k : DocKey) :
    ∀ (ops : List BatchOp) (s : DocStore), (∀ op ∈ ops, k ≠ opKey a op) →
      getDoc (writeBatch s ⟨a, ops⟩) k = getDoc s k := by
  intro ops
  induction ops with
  | nil => intro s _; rfl
  | cons op t ih =>
      intro s h
      rw [writeBatch_cons, ih (applyBatchOp a s op) (fun o ho => h o (List.mem_cons_of_mem _ ho)),
        getDoc_applyBatchOp_ne a s op k (h op (List.mem_cons_self _ _))]

theorem get_document_tags_of_doc (s : DocStore) (a : AccountId) (c : Collection)
    (d : DocumentId) (f : MailDoc → Finset Nat) (m : MailDoc)
    (hdoc : getDoc s (a, c, d) = some (.mail m)) :
    get_document_tags s a c d f = if f m = ∅ then none else some (f m) := by
  unfold get_document_tags
  rw [hdoc]

theorem get_document_tags_of_other (s : DocStore) (a : AccountId) (c : Collection)
    (d : DocumentId) (f : MailDoc → Finset Nat)
    (hdoc : ∀ m, getDoc s (a, c, d) ≠ some (.mail m)) :
    get_document_tags s a c d f = none := by
  unfold get_document_tags
  cases hg : getDoc s (a, c, d) with
  | none => rfl
  | some v =>
      cases v with
      | mail m => exact absurd hg (hdoc m)
      | mailboxDoc v => rfl
      | otherDoc => rfl

theorem get_document_tags_some_inv (s : DocStore) (a : AccountId) (c : Collection)
    (d : DocumentId) (f : MailDoc → Finset Nat) (ts : Finset Nat)
    (h : get_document_tags s a c d f = some ts) :
    ∃ m, getDoc s (a, c, d) = some (.mail m) ∧ f m = ts ∧ ts ≠ ∅ := by
  cases hg : getDoc s (a, c, d) with
  | none =>
      rw [get_document_tags_of_other s a c d f
        (fun m hm => by rw [hg] at hm; exact Option.noConfusion hm)] at h
      exact Option.noConfusion h
  | some v =>
      cases v with
      | mail m =>
          rw [get_document_tags_of_doc s a c d f m hg] at h
          by_cases he : f m = ∅
          · rw [if_pos he] at h; exact Option.noConfusion h
          · rw [if_neg he] at h
            refine ⟨m, rfl, Option.some.inj h, ?_⟩
            rw [← Option.some.inj h]; exact he
      | mailboxDoc v =>
          rw [get_document_tags_of_other s a c d f
            (fun m hm => by rw [hg] at hm; exact DocVal.noConfusion (Option.some.inj hm))] at h
          exact Option.noConfusion h
      | otherDoc =>
          rw [get_document_tags_of_other s a c d f
            (fun m hm => by rw [hg] at hm; exact DocVal.noConfusion (Option.some.inj hm))] at h
          exact Option.noConfusion h

theorem ascList_head_mem (ts : Finset Nat) (x : Nat) (h : (ascList ts).head? = some x) :
    x ∈ ts := by
  have hx : x ∈ ascList ts := List.mem_of_mem_head? (Option.mem_def.mpr h)
  unfold ascList at hx
  exact of_decide_eq_true (List.mem_filter.mp hx).2

theorem ascList_singleton (n : Nat) : ascList {n} = [n] := by
  unfold ascList
  rw [show ({n} : Finset Nat).sup id = n from Finset.sup_singleton]
  rw [List.range_succ, List.filter_append]
  have h1 : (List.range n).filter (fun x => decide (x ∈ ({n} : Finset Nat))) = [] := by
    rw [List.filter_eq_nil_iff]
    intro x hx
    simp only [Finset.mem_singleton, decide_eq_true_eq]
    exact Nat.ne_of_lt (List.mem_range.mp hx)
  rw [h1]
  simp [List.filter]

theorem get_document_tag_id_of_doc (s : DocStore) (a : AccountId) (c : Collection)
    (d : DocumentId) (m : MailDoc) (hdoc : getDoc s (a, c, d) = some (.mail m)) :
    get_document_tag_id s a c d =
      if m.threadIds = ∅ then none else (ascList m.threadIds).head? := by
  unfold get_document_tag_id
  rw [get_document_tags_of_doc s a c d MailDoc.threadIds m hdoc]
  by_cases he : m.threadIds = ∅
  · rw [if_pos he, if_pos he]
  · rw [if_neg he, if_neg he]

theorem get_document_tag_id_some_inv (s : DocStore) (a : AccountId) (c : Collection)
    (d : DocumentId) (ct : Nat) (h : get_document_tag_id s a c d = some ct) :
    ∃ m, getDoc s (a, c, d) = some (.mail m) ∧ ct ∈ m.threadIds := by
  unfold get_document_tag_id at h
  cases hts : get_document_tags s a c d MailDoc.threadIds with
  | none => rw [hts] at h; exact Option.noConfusion h
  | some ts =>
      rw [hts] at h
      obtain ⟨m, hdoc, hfm, _⟩ := get_document_tags_some_inv s a c d MailDoc.threadIds ts hts
      refine ⟨m, hdoc, ?_⟩
      have hhd : (ascList ts).head? = some ct := h
      have := ascList_head_mem ts ct hhd
      rw [show MailDoc.threadIds m = m.threadIds from rfl] at hfm
      rw [hfm]
      exact this

theorem keywords_read_of_doc (s : DocStore) (a : AccountId) (c : Collection)
    (d : DocumentId) (m : MailDoc) (hdoc : getDoc s (a, c, d) = some (.mail m)) :
    (get_document_tags s a c d MailDoc.keywords).getD ∅ = m.keywords := by
  rw [get_document_tags_of_doc s a c d MailDoc.keywords m hdoc]
  by_cases he : m.keywords = ∅
  · rw [if_pos he]; exact he.symm
  · rw [if_neg he]; rfl

theorem raft_update_mail_insert_eq (s : DocStore) (b : WriteBatch) (a : AccountId)
    (d tid : DocumentId) (mb kw : Finset Nat) (raw : List Nat) (rcv : Int) :
    raft_update_mail s b a d tid mb kw (some (raw, rcv)) =
      { b with ops := b.ops ++ [.insertDocument .mail d
        (.mail ⟨mb, kw, {tid}, raw, rcv⟩)] } := rfl

theorem raft_update_mail_mb_none (s : DocStore) (b : WriteBatch) (a : AccountId)
    (d tid : DocumentId) (mb kw : Finset Nat)
    (hmb : get_document_tags s a .mail d MailDoc.mailboxes = none) :
    raft_update_mail s b a d tid mb kw none = b := by
  unfold raft_update_mail
  rw [hmb]

theorem raft_update_mail_tid_none (s : DocStore) (b : WriteBatch) (a : AccountId)
    (d tid : DocumentId) (mb kw cur : Finset Nat)
    (hmb : get_document_tags s a .mail d MailDoc.mailboxes = some cur)
    (htid : get_document_tag_id s a .mail d = none) :
    raft_update_mail s b a d tid mb kw none = b := by
  unfold raft_update_mail
  rw [hmb, htid]

theorem raft_update_mail_delta (s : DocStore) (b : WriteBatch) (a : AccountId)
    (d tid : DocumentId) (mb kw cur : Finset Nat) (ct : Nat)
    (hmb : get_document_tags s a .mail d MailDoc.mailboxes = some cur)
    (htid : get_document_tag_id s a .mail d = some ct) :
    raft_update_mail s b a d tid mb kw none =
      if mailDelta cur ((get_document_tags s a .mail d MailDoc.keywords).getD ∅) ct tid mb kw =
          DocumentDelta.emptyDelta then b
      else { b with ops := b.ops ++ [.updateDocument .mail d
        (mailDelta cur ((get_document_tags s a .mail d MailDoc.keywords).getD ∅) ct tid mb kw)] } := by
  unfold raft_update_mail mailDelta
  rw [hmb, htid]
  simp only [apply_ite Prod.fst, apply_ite Prod.snd]

theorem raft_update_mail_ops_append (s : DocStore) (acc : AccountId) (ops : List BatchOp)
    (a : AccountId) (d tid : DocumentId) (mb kw : Finset Nat)
    (ins : Option (List Nat × Int)) :
    raft_update_mail s ⟨acc, ops⟩ a d tid mb kw ins =
      ⟨acc, ops ++ raftUpdateMailOps s a d tid mb kw ins⟩ := by
  unfold raftUpdateMailOps
  cases ins with
  | some p =>
      obtain ⟨raw, rcv⟩ := p
      rw [raft_update_mail_insert_eq, raft_update_mail_insert_eq]
      simp [WriteBatch.new]
  | none =>
      cases hmb : get_document_tags s a .mail d MailDoc.mailboxes with
      | none =>
          rw [raft_update_mail_mb_none s _ a d tid mb kw hmb,
            raft_update_mail_mb_none s _ a d tid mb kw hmb]
          simp [WriteBatch.new]
      | some cur =>
          cases htid : get_document_tag_id s a .mail d with
          | none =>
              rw [raft_update_mail_tid_none s _ a d tid mb kw cur hmb htid,
                raft_update_mail_tid_none s _ a d tid mb kw cur hmb htid]
              simp [WriteBatch.new]
          | some ct =>
              rw [raft_update_mail_delta s _ a d tid mb kw cur ct hmb htid,
                raft_update_mail_delta s _ a d tid mb kw cur ct hmb htid]
              by_cases hd : mailDelta cur
                  ((get_document_tags s a .mail d MailDoc.keywords).getD ∅) ct tid mb kw =
                  DocumentDelta.emptyDelta
              · simp [WriteBatch.new, if_pos hd]
              · simp [WriteBatch.new, if_neg hd]

theorem raft_update_mail_new_eta (s : DocStore) (a : AccountId) (d tid : DocumentId)
    (mb kw : Finset Nat) (ins : Option (List Nat × Int)) :
    raft_update_mail s (WriteBatch.new a) a d tid mb kw ins =
      ⟨a, raftUpdateMailOps s a d tid mb kw ins⟩ := by
  rw [show WriteBatch.new a = (⟨a, []⟩ : WriteBatch) from rfl, raft_update_mail_ops_append]
  simp

theorem raftUpdateMailOps_keys (s : DocStore) (a : AccountId) (d tid : DocumentId)
    (mb kw : Finset Nat) (ins : Option (List Nat × Int)) :
    ∀ op ∈ raftUpdateMailOps s a d tid mb kw ins, opKey a op = (a, .mail, d) := by
  intro op hop
  unfold raftUpdateMailOps at hop
  cases ins with
  | some p =>
      obtain ⟨raw, rcv⟩ := p
      rw [raft_update_mail_insert_eq] at hop
      simp only [WriteBatch.new, List.nil_append] at hop
      rw [List.mem_singleton.mp hop]
      rfl
  | none =>
      cases hmb : get_document_tags s a .mail d MailDoc.mailboxes with
      | none =>
          rw [raft_update_mail_mb_none s _ a d tid mb kw hmb] at hop
          exact absurd hop (by simp [WriteBatch.new])
      | some cur =>
          cases htid : get_document_tag_id s a .mail d with
          | none =>
              rw [raft_update_mail_tid_none s _ a d tid mb kw cur hmb htid] at hop
              exact absurd hop (by simp [WriteBatch.new])
          | some ct =>
              rw [raft_update_mail_delta s _ a d tid mb kw cur ct hmb htid] at hop
              by_cases hd : mailDelta cur
                  ((get_document_tags s a .mail d MailDoc.keywords).getD ∅) ct tid mb kw =
                  DocumentDelta.emptyDelta
              · rw [if_pos hd] at hop
                exact absurd hop (by simp [WriteBatch.new])
              · rw [if_neg hd] at hop
                simp only [WriteBatch.new, List.nil_append] at hop
                rw [List.mem_singleton.mp hop]
                rfl

theorem get_document_tags_congr (s1 s2 : DocStore) (a : AccountId) (c : Collection)
    (d : DocumentId) (f : MailDoc → Finset Nat)
    (h : getDoc s1 (a, c, d) = getDoc s2 (a, c, d)) :
    get_document_tags s1 a c d f = get_document_tags s2 a c d f := by
  unfold get_document_tags
  rw [h]

theorem get_document_tag_id_congr (s1 s2 : DocStore) (a : AccountId) (c : Collection)
    (d : DocumentId) (h : getDoc s1 (a, c, d) = getDoc s2 (a, c, d)) :
    get_document_tag_id s1 a c d = get_document_tag_id s2 a c d := by
  unfold get_document_tag_id
  rw [get_document_tags_congr s1 s2 a c d MailDoc.threadIds h]

theorem raftUpdateMailOps_congr (s1 s2 : DocStore) (a : AccountId) (d tid : DocumentId)
    (mb kw : Finset Nat) (ins : Option (List Nat × Int))
    (h : getDoc s1 (a, .mail, d) = getDoc s2 (a, .mail, d)) :
    raftUpdateMailOps s1 a d tid mb kw ins = raftUpdateMailOps s2 a d tid mb kw ins := by
  unfold raftUpdateMailOps raft_update_mail
  cases ins with
  | some p => rfl
  | none =>
      rw [get_document_tags_congr s1 s2 a .mail d MailDoc.mailboxes h,
        get_document_tags_congr s1 s2 a .mail d MailDoc.keywords h,
        get_document_tag_id_congr s1 s2 a .mail d h]

theorem applyUpdateNow_updateDocument_eq (decompress : List Nat → Option (List Nat))
    (s : DocStore) (a : AccountId) (d : DocumentId) (u : DocumentUpdate) :
    applyUpdateNow decompress s (.updateDocument a d u) =
      (apply_document_update decompress s a d u (WriteBatch.new a)).map
        (fun b => writeBatch s b) := rfl

theorem apply_document_update_updateMail_eq (decompress : List Nat → Option (List Nat))
    (s : DocStore) (a : AccountId) (d tid : DocumentId) (kw mb : Finset Nat)
    (b : WriteBatch) :
    apply_document_update decompress s a d (.updateMail tid kw mb) b =
      some (raft_update_mail s b a d tid mb kw none) := rfl

theorem apply_document_update_insertMail_eq (decompress : List Nat → Option (List Nat))
    (s : DocStore) (a : AccountId) (d tid : DocumentId) (kw mb : Finset Nat)
    (rcv : Int) (body : List Nat) (b : WriteBatch) :
    apply_document_update decompress s a d (.insertMail tid kw mb rcv body) b =
      (match decompress body with
       | some raw => some (raft_update_mail s b a d tid mb kw (some (raw, rcv)))
       | none => none) := rfl

theorem apply_document_update_mailbox_eq (decompress : List Nat → Option (List Nat))
    (s : DocStore) (a : AccountId) (d : DocumentId) (mbx : Nat) (b : WriteBatch) :
    apply_document_update decompress s a d (.updateMailbox mbx) b =
      some (raft_update_mailbox b d mbx) := rfl

theorem applyUpdateNow_updateMail_eq (decompress : List Nat → Option (List Nat))
    (s : DocStore) (a : AccountId) (d tid : DocumentId) (kw mb : Finset Nat) :
    applyUpdateNow decompress s (.updateDocument a d (.updateMail tid kw mb)) =
      some (writeBatch s ⟨a, raftUpdateMailOps s a d tid mb kw none⟩) := by
  rw [applyUpdateNow_updateDocument_eq, apply_document_update_updateMail_eq,
    raft_update_mail_new_eta]
  rfl

theorem applyUpdateNow_insertMail_some (decompress : List Nat → Option (List Nat))
    (s : DocStore) (a : AccountId) (d tid : DocumentId) (kw mb : Finset Nat)
    (rcv : Int) (body raw : List Nat) (hdec : decompress body = some raw) :
    applyUpdateNow decompress s (.updateDocument a d (.insertMail tid kw mb rcv body)) =
      some (setDoc s (a, .mail, d) (.mail ⟨mb, kw, {tid}, raw, rcv⟩)) := by
  rw [applyUpdateNow_updateDocument_eq, apply_document_update_insertMail_eq, hdec]
  rfl

theorem applyUpdateNow_insertMail_none (decompress : List Nat → Option (List Nat))
    (s : DocStore) (a : AccountId) (d tid : DocumentId) (kw mb : Finset Nat)
    (rcv : Int) (body : List Nat) (hdec : decompress body = none) :
    applyUpdateNow decompress s (.updateDocument a d (.insertMail tid kw mb rcv body)) =
      none := by
  rw [applyUpdateNow_updateDocument_eq, apply_document_update_insertMail_eq, hdec]
  rfl

theorem applyUpdateNow_mailbox_eq (decompress : List Nat → Option (List Nat))
    (s : DocStore) (a : AccountId) (d : DocumentId) (mbx : Nat) :
    applyUpdateNow decompress s (.updateDocument a d (.updateMailbox mbx)) =
      some (setDoc s (a, .mailbox, d) (.mailboxDoc mbx)) := rfl

theorem applyUpdateNow_delete_eq (decompress : List Nat → Option (List Nat))
    (s : DocStore) (a : AccountId) (c : Collection) (ids : List DocumentId) :
    applyUpdateNow decompress s (.deleteDocuments a c ids) =
      some (writeBatch s ⟨a, ids.map (BatchOp.deleteDocument c)⟩) := rfl

theorem apply_document_update_append (decompress : List Nat → Option (List Nat))
    (s : DocStore) (a : AccountId) (d : DocumentId) (u : DocumentUpdate)
    (acc : AccountId) (ops : List BatchOp) :
    apply_document_update decompress s a d u ⟨acc, ops⟩ =
      (apply_document_update decompress s a d u (WriteBatch.new a)).map
        (fun b0 => ⟨acc, ops ++ b0.ops⟩) := by
  cases u with
  | insertMail tid kw mbx rcv body =>
      rw [apply_document_update_insertMail_eq, apply_document_update_insertMail_eq]
      cases hdec : decompress body with
      | none => rfl
      | some raw =>
          show some (raft_update_mail s (⟨acc, ops⟩ : WriteBatch) a d tid mbx kw
              (some (raw, rcv))) =
            Option.map (fun b0 => (⟨acc, ops ++ b0.ops⟩ : WriteBatch))
              (some (raft_update_mail s (WriteBatch.new a) a d tid mbx kw (some (raw, rcv))))
          rw [raft_update_mail_ops_append, raft_update_mail_new_eta]
          rfl
  | updateMail tid kw mbx =>
      rw [apply_document_update_updateMail_eq, apply_document_update_updateMail_eq,
        raft_update_mail_ops_append, raft_update_mail_new_eta]
      rfl
  | updateMailbox mbx =>
      rw [apply_document_update_mailbox_eq, apply_document_update_mailbox_eq]
      unfold raft_update_mailbox
      simp [WriteBatch.new]

theorem apply_document_update_new_spec (decompress : List Nat → Option (List Nat))
    (s : DocStore) (a : AccountId) (d : DocumentId) (u : DocumentUpdate) (b0 : WriteBatch)
    (h : apply_document_update decompress s a d u (WriteBatch.new a) = some b0) :
    b0.account_id = a ∧
      ∀ op ∈ b0.ops, opKey a op ∈ updTargets (.updateDocument a d u) := by
  cases u with
  | insertMail tid kw mbx rcv body =>
      rw [apply_document_update_insertMail_eq] at h
      cases hdec : decompress body with
      | none => rw [hdec] at h; exact Option.noConfusion h
      | some raw =>
          rw [hdec] at h
          replace h : some (raft_update_mail s (WriteBatch.new a) a d tid mbx kw
            (some (raw, rcv))) = some b0 := h
          rw [raft_update_mail_new_eta] at h
          rw [← Option.some.inj h]
          refine ⟨rfl, ?_⟩
          intro op hop
          rw [raftUpdateMailOps_keys s a d tid mbx kw (some (raw, rcv)) op hop]
          simp [updTargets]
  | updateMail tid kw mbx =>
      rw [apply_document_update_updateMail_eq, raft_update_mail_new_eta] at h
      rw [← Option.some.inj h]
      refine ⟨rfl, ?_⟩
      intro op hop
      rw [raftUpdateMailOps_keys s a d tid mbx kw none op hop]
      simp [updTargets]
  | updateMailbox mbx =>
      rw [apply_document_update_mailbox_eq] at h
      unfold raft_update_mailbox at h
      rw [← Option.some.inj h]
      refine ⟨rfl, ?_⟩
      intro op hop
      simp only [WriteBatch.new, List.nil_append] at hop
      rw [List.mem_singleton.mp hop]
      simp [updTargets, opKey]

theorem target_union_sdiff (cur mb : Finset Nat) :
    (cur \ (if cur ≠ mb then cur \ mb else ∅)) ∪ (if cur ≠ mb then mb \ cur else ∅) = mb := by
  by_cases h : cur = mb
  · subst h; simp
  · rw [if_pos h, if_pos h]
    ext x
    by_cases hc : x ∈ cur <;> by_cases hm : x ∈ mb <;> simp [hc, hm]

theorem thread_target_sdiff (ct tid : Nat) :
    (({ct} : Finset Nat) ∪ (if tid ≠ ct then {tid} else ∅)) \
      (if tid ≠ ct then {ct} else ∅) = {tid} := by
  by_cases h : tid = ct
  · subst h; simp
  · rw [if_pos h, if_pos h]
    ext x
    simp only [Finset.mem_sdiff, Finset.mem_union, Finset.mem_singleton]
    constructor
    · rintro ⟨hx | hx, hnx⟩
      · exact absurd hx hnx
      · exact hx
    · intro hx
      subst hx
      exact ⟨Or.inr rfl, fun hc => h hc⟩

theorem mailDelta_self (x y : Finset Nat) (c : Nat) :
    mailDelta x y c c x y = DocumentDelta.emptyDelta := by
  unfold mailDelta DocumentDelta.emptyDelta
  simp

theorem eq_singleton_of_card_le_one (s : Finset Nat) (x : Nat) (hx : x ∈ s)
    (hc : s.card ≤ 1) : s = {x} := by
  have h1 : 0 < s.card := Finset.card_pos.mpr ⟨x, hx⟩
  obtain ⟨y, hy⟩ := Finset.card_eq_one.mp (le_antisymm hc h1)
  rw [hy]
  rw [hy, Finset.mem_singleton] at hx
  rw [hx]

theorem applyDelta_mailDelta (m : MailDoc) (ct tid : Nat) (mb kw : Finset Nat)
    (hct : m.threadIds = {ct}) :
    m.applyDelta (mailDelta m.mailboxes m.keywords ct tid mb kw) =
      ⟨mb, kw, {tid}, m.body, m.receivedAt⟩ := by
  unfold MailDoc.applyDelta mailDelta
  rw [hct]
  simp only [MailDoc.mk.injEq]
  exact ⟨target_union_sdiff m.mailboxes mb, target_union_sdiff m.keywords kw,
    thread_target_sdiff ct tid, trivial, trivial⟩

theorem applyBatchOp_update_of_mail (a : AccountId) (s : DocStore) (c : Collection)
    (d : DocumentId) (delta : DocumentDelta) (m : MailDoc)
    (hdoc : getDoc s (a, c, d) = some (.mail m)) :
    applyBatchOp a s (.updateDocument c d delta) =
      setDoc s (a, c, d) (.mail (m.applyDelta delta)) := by
  simp only [applyBatchOp]
  rw [hdoc]

theorem raftUpdateMailOps_mb_none (s : DocStore) (a : AccountId) (d tid : DocumentId)
    (mb kw : Finset Nat) (hmb : get_document_tags s a .mail d MailDoc.mailboxes = none) :
    raftUpdateMailOps s a d tid mb kw none = [] := by
  unfold raftUpdateMailOps
  rw [raft_update_mail_mb_none s _ a d tid mb kw hmb]
  rfl

theorem raftUpdateMailOps_tid_none (s : DocStore) (a : AccountId) (d tid : DocumentId)
    (mb kw cur : Finset Nat)
    (hmb : get_document_tags s a .mail d MailDoc.mailboxes = some cur)
    (htid : get_document_tag_id s a .mail d = none) :
    raftUpdateMailOps s a d tid mb kw none = [] := by
  unfold raftUpdateMailOps
  rw [raft_update_mail_tid_none s _ a d tid mb kw cur hmb htid]
  rfl

theorem raftUpdateMailOps_delta (s : DocStore) (a : AccountId) (d tid : DocumentId)
    (mb kw cur : Finset Nat) (ct : Nat)
    (hmb : get_document_tags s a .mail d MailDoc.mailboxes = some cur)
    (htid : get_document_tag_id s a .mail d = some ct) :
    raftUpdateMailOps s a d tid mb kw none =
      if mailDelta cur ((get_document_tags s a .mail d MailDoc.keywords).getD ∅) ct tid mb kw =
          DocumentDelta.emptyDelta then []
      else [.updateDocument .mail d
        (mailDelta cur ((get_document_tags s a .mail d MailDoc.keywords).getD ∅) ct tid mb kw)] := by
  unfold raftUpdateMailOps
  rw [raft_update_mail_delta s _ a d tid mb kw cur ct hmb htid]
  by_cases hd : mailDelta cur ((get_document_tags s a .mail d MailDoc.keywords).getD ∅) ct tid
      mb kw = DocumentDelta.emptyDelta
  · rw [if_pos hd, if_pos hd]
    rfl
  · rw [if_neg hd, if_neg hd]
    simp [WriteBatch.new]

theorem updateMail_settled (s : DocStore) (a : AccountId) (d tid : DocumentId)
    (kw mb : Finset Nat)
    (hwfk : ∀ m, getDoc s (a, .mail, d) = some (.mail m) → m.threadIds.card ≤ 1) :
    raftUpdateMailOps (writeBatch s ⟨a, raftUpdateMailOps s a d tid mb kw none⟩)
        a d tid mb kw none = [] ∧
    ∀ m', getDoc (writeBatch s ⟨a, raftUpdateMailOps s a d tid mb kw none⟩) (a, .mail, d) =
        some (.mail m') → m'.threadIds.card ≤ 1 := by
  cases hmb : get_document_tags s a .mail d MailDoc.mailboxes with
  | none =>
      rw [raftUpdateMailOps_mb_none s a d tid mb kw hmb, writeBatch_nil_ops]
      exact ⟨raftUpdateMailOps_mb_none s a d tid mb kw hmb, hwfk⟩
  | some cur =>
      cases htid : get_document_tag_id s a .mail d with
      | none =>
          rw [raftUpdateMailOps_tid_none s a d tid mb kw cur hmb htid, writeBatch_nil_ops]
          exact ⟨raftUpdateMailOps_tid_none s a d tid mb kw cur hmb htid, hwfk⟩
      | some ct =>
          rw [raftUpdateMailOps_delta s a d tid mb kw cur ct hmb htid]
          by_cases hd : mailDelta cur ((get_document_tags s a .mail d MailDoc.keywords).getD ∅)
              ct tid mb kw = DocumentDelta.emptyDelta
          · rw [if_pos hd, writeBatch_nil_ops]
            refine ⟨?_, hwfk⟩
            rw [raftUpdateMailOps_delta s a d tid mb kw cur ct hmb htid, if_pos hd]
          · rw [if_neg hd]
            obtain ⟨m, hdoc, hfm, hcurne⟩ :=
              get_document_tags_some_inv s a .mail d MailDoc.mailboxes cur hmb
            obtain ⟨m2, hdoc2, hctm⟩ := get_document_tag_id_some_inv s a .mail d ct htid
            rw [hdoc] at hdoc2
            have hm2 : m = m2 := DocVal.mail.inj (Option.some.inj hdoc2)
            rw [← hm2] at hctm
            have hths : m.threadIds = {ct} :=
              eq_singleton_of_card_le_one m.threadIds ct hctm (hwfk m hdoc)
            have hkwread : (get_document_tags s a .mail d MailDoc.keywords).getD ∅ =
              m.keywords := keywords_read_of_doc s a .mail d m hdoc
            have hcur : cur = m.mailboxes := hfm.symm
            have hδ : mailDelta cur ((get_document_tags s a .mail d MailDoc.keywords).getD ∅)
                ct tid mb kw = mailDelta m.mailboxes m.keywords ct tid mb kw := by
              rw [hkwread, hcur]
            have happly : m.applyDelta (mailDelta m.mailboxes m.keywords ct tid mb kw) =
              ⟨mb, kw, {tid}, m.body, m.receivedAt⟩ := applyDelta_mailDelta m ct tid mb kw hths
            have ht : writeBatch s ⟨a, [BatchOp.updateDocument .mail d
                (mailDelta cur ((get_document_tags s a .mail d MailDoc.keywords).getD ∅)
                  ct tid mb kw)]⟩ =
                setDoc s (a, .mail, d) (.mail ⟨mb, kw, {tid}, m.body, m.receivedAt⟩) := by
              rw [writeBatch_cons, writeBatch_nil_ops,
                applyBatchOp_update_of_mail a s .mail d _ m hdoc, hδ, happly]
            rw [ht]
            have hdocT : getDoc (setDoc s (a, .mail, d)
                (.mail ⟨mb, kw, {tid}, m.body, m.receivedAt⟩)) (a, .mail, d) =
                some (.mail ⟨mb, kw, {tid}, m.body, m.receivedAt⟩) := by
              rw [getDoc_setDoc, if_pos rfl]
            constructor
            · by_cases hmbe : mb = ∅
              · refine raftUpdateMailOps_mb_none _ a d tid mb kw ?_
                rw [get_document_tags_of_doc _ a .mail d MailDoc.mailboxes _ hdocT]
                simp [hmbe]
              · have htags : get_document_tags (setDoc s (a, .mail, d)
                    (.mail ⟨mb, kw, {tid}, m.body, m.receivedAt⟩)) a .mail d
                    MailDoc.mailboxes = some mb := by
                  rw [get_document_tags_of_doc _ a .mail d MailDoc.mailboxes _ hdocT]
                  simp [hmbe]
                have htid2 : get_document_tag_id (setDoc s (a, .mail, d)
                    (.mail ⟨mb, kw, {tid}, m.body, m.receivedAt⟩)) a .mail d = some tid := by
                  rw [get_document_tag_id_of_doc _ a .mail d _ hdocT]
                  simp [ascList_singleton]
                rw [raftUpdateMailOps_delta _ a d tid mb kw mb tid htags htid2]
                have hkw2 : (get_document_tags (setDoc s (a, .mail, d)
                    (.mail ⟨mb, kw, {tid}, m.body, m.receivedAt⟩)) a .mail d
                    MailDoc.keywords).getD ∅ = kw :=
                  keywords_read_of_doc _ a .mail d _ hdocT
                rw [hkw2, if_pos (mailDelta_self mb kw tid)]
            · intro m' hm'
              rw [hdocT] at hm'
              rw [← DocVal.mail.inj (Option.some.inj hm')]
              simp

theorem setDoc_self (s : DocStore) (k : DocKey) (v : DocVal) (h : getDoc s k = some v) :
    setDoc s k v = s := by
  funext q
  show (if q = k then some v else s q) = s q
  by_cases hq : q = k
  · rw [if_pos hq, hq]; exact h.symm
  · rw [if_neg hq]

theorem applyUpdateNow_shape (decompress : List Nat → Option (List Nat)) (s : DocStore)
    (u : PendingUpdate) (t : DocStore) (h : applyUpdateNow decompress s u = some t) :
    ∃ a ops, t = writeBatch s ⟨a, ops⟩ ∧ ∀ op ∈ ops, opKey a op ∈ updTargets u := by
  cases u with
  | updateDocument a d du =>
      rw [applyUpdateNow_updateDocument_eq] at h
      cases hb : apply_document_update decompress s a d du (WriteBatch.new a) with
      | none => rw [hb] at h; exact Option.noConfusion h
      | some b0 =>
          rw [hb] at h
          obtain ⟨hacc, hkeys⟩ := apply_document_update_new_spec decompress s a d du b0 hb
          refine ⟨a, b0.ops, ?_, hkeys⟩
          rw [← Option.some.inj h]
          obtain ⟨ba, bops⟩ := b0
          rw [show (⟨ba, bops⟩ : WriteBatch).account_id = ba from rfl] at hacc
          rw [hacc]
  | deleteDocuments a c ids =>
      rw [applyUpdateNow_delete_eq] at h
      refine ⟨a, ids.map (BatchOp.deleteDocument c), (Option.some.inj h).symm, ?_⟩
      intro op hop
      obtain ⟨i, hi, hieq⟩ := List.mem_map.mp hop
      rw [← hieq]
      simp only [updTargets, opKey, List.mem_map]
      exact ⟨i, hi, rfl⟩

theorem applyUpdateNow_local (decompress : List Nat → Option (List Nat)) (s : DocStore)
    (u : PendingUpdate) (t : DocStore) (h : applyUpdateNow decompress s u = some t)
    (k : DocKey) (hk : k ∉ updTargets u) : getDoc t k = getDoc s k := by
  obtain ⟨a, ops, rfl, hkeys⟩ := applyUpdateNow_shape decompress s u t h
  exact getDoc_writeBatch_ne a k ops s (fun op hop heq => hk (heq ▸ hkeys op hop))

theorem runNow_local (decompress : List Nat → Option (List Nat)) :
    ∀ (ups : List PendingUpdate) (s s1 : DocStore),
      runUpdatesNow decompress s ups = some s1 →
      ∀ k, (∀ u ∈ ups, k ∉ updTargets u) → getDoc s1 k = getDoc s k := by
  intro ups
  induction ups with
  | nil =>
      intro s s1 h k _
      rw [← Option.some.inj h]
  | cons u rest ih =>
      intro s s1 h k hk
      rw [show runUpdatesNow decompress s (u :: rest) =
        (match applyUpdateNow decompress s u with
         | some s2 => runUpdatesNow decompress s2 rest
         | none => none) from rfl] at h
      cases ha : applyUpdateNow decompress s u with
      | none => rw [ha] at h; exact Option.noConfusion h
      | some t =>
          rw [ha] at h
          replace h : runUpdatesNow decompress t rest = some s1 := h
          rw [ih t s1 h k (fun u' hu' => hk u' (List.mem_cons_of_mem _ hu'))]
          exact applyUpdateNow_local decompress s u t ha k (hk u (List.mem_cons_self _ _))

theorem applyUpdateNow_wf (decompress : List Nat → Option (List Nat)) (s : DocStore)
    (u : PendingUpdate) (t : DocStore) (hwf : WfStore s)
    (h : applyUpdateNow decompress s u = some t) : WfStore t := by
  cases u with
  | updateDocument a d du =>
      cases du with
      | insertMail tid kw mbx rcv body =>
          cases hdec : decompress body with
          | none =>
              rw [applyUpdateNow_insertMail_none decompress s a d tid kw mbx rcv body hdec]
                at h
              exact Option.noConfusion h
          | some raw =>
              rw [applyUpdateNow_insertMail_some decompress s a d tid kw mbx rcv body raw
                hdec] at h
              rw [← Option.some.inj h]
              intro k m hm
              rw [getDoc_setDoc] at hm
              by_cases hk : k = (a, .mail, d)
              · rw [if_pos hk] at hm
                rw [← DocVal.mail.inj (Option.some.inj hm)]
                simp
              · rw [if_neg hk] at hm
                exact hwf k m hm
      | updateMail tid kw mbx =>
          rw [applyUpdateNow_updateMail_eq decompress s a d tid kw mbx] at h
          rw [← Option.some.inj h]
          intro k m hm
          by_cases hk : k = (a, .mail, d)
          · subst hk
            exact (updateMail_settled s a d tid kw mbx (fun m0 h0 => hwf _ m0 h0)).2 m hm
          · rw [getDoc_writeBatch_ne a k _ s (fun op hop heq =>
              hk (by rw [heq, raftUpdateMailOps_keys s a d tid mbx kw none op hop]))] at hm
            exact hwf k m hm
      | updateMailbox mbx =>
          rw [applyUpdateNow_mailbox_eq] at h
          rw [← Option.some.inj h]
          intro k m hm
          rw [getDoc_setDoc] at hm
          by_cases hk : k = (a, .mailbox, d)
          · rw [if_pos hk] at hm
            exact DocVal.noConfusion (Option.some.inj hm)
          · rw [if_neg hk] at hm
            exact hwf k m hm
  | deleteDocuments a c ids =>
      rw [applyUpdateNow_delete_eq] at h
      rw [← Option.some.inj h]
      intro k m hm
      rw [writeBatch_deletes] at hm
      by_cases hk : k.1 = a ∧ k.2.1 = c ∧ k.2.2 ∈ ids
      · rw [if_pos hk] at hm
        exact Option.noConfusion hm
      · rw [if_neg hk] at hm
        exact hwf k m hm

theorem applyUpdateNow_settled_transfer (decompress : List Nat → Option (List Nat))
    (s t s2 : DocStore) (u : PendingUpdate) (hwf : WfStore s)
    (ht : applyUpdateNow decompress s u = some t)
    (hagree : ∀ k ∈ updTargets u, getDoc s2 k = getDoc t k) :
    applyUpdateNow decompress s2 u = some s2 := by
  cases u with
  | updateDocument a d du =>
      cases du with
      | insertMail tid kw mbx rcv body =>
          cases hdec : decompress body with
          | none =>
              rw [applyUpdateNow_insertMail_none decompress s a d tid kw mbx rcv body hdec]
                at ht
              exact Option.noConfusion ht
          | some raw =>
              rw [applyUpdateNow_insertMail_some decompress s a d tid kw mbx rcv body raw
                hdec] at ht
              have hkey : getDoc s2 (a, .mail, d) =
                  some (.mail ⟨mbx, kw, {tid}, raw, rcv⟩) := by
                rw [hagree (a, .mail, d) (by simp [updTargets]), ← Option.some.inj ht,
                  getDoc_setDoc, if_pos rfl]
              rw [applyUpdateNow_insertMail_some decompress s2 a d tid kw mbx rcv body raw
                hdec, setDoc_self s2 _ _ hkey]
      | updateMail tid kw mbx =>
          rw [applyUpdateNow_updateMail_eq decompress s a d tid kw mbx] at ht
          rw [applyUpdateNow_updateMail_eq decompress s2 a d tid kw mbx]
          have hops : raftUpdateMailOps s2 a d tid mbx kw none = [] := by
            rw [raftUpdateMailOps_congr s2
              (writeBatch s ⟨a, raftUpdateMailOps s a d tid mbx kw none⟩) a d tid mbx kw none
              (by rw [hagree (a, .mail, d) (by simp [updTargets]), ← Option.some.inj ht])]
            exact (updateMail_settled s a d tid kw mbx (fun m0 h0 => hwf _ m0 h0)).1
          rw [hops, writeBatch_nil_ops]
      | updateMailbox mbx =>
          rw [applyUpdateNow_mailbox_eq] at ht
          have hkey : getDoc s2 (a, .mailbox, d) = some (.mailboxDoc mbx) := by
            rw [hagree (a, .mailbox, d) (by simp [updTargets]), ← Option.some.inj ht,
              getDoc_setDoc, if_pos rfl]
          rw [applyUpdateNow_mailbox_eq, setDoc_self s2 _ _ hkey]
  | deleteDocuments a c ids =>
      rw [applyUpdateNow_delete_eq] at ht
      rw [applyUpdateNow_delete_eq]
      congr 1
      funext q
      show getDoc (writeBatch s2 ⟨a, ids.map (BatchOp.deleteDocument c)⟩) q = getDoc s2 q
      by_cases hq : q.1 = a ∧ q.2.1 = c ∧ q.2.2 ∈ ids
      · rw [writeBatch_deletes, if_pos hq]
        have hqmem : q ∈ updTargets (.deleteDocuments a c ids) := by
          simp only [updTargets, List.mem_map]
          exact ⟨q.2.2, hq.2.2, by rw [← hq.1, ← hq.2.1]⟩
        rw [hagree q hqmem, ← Option.some.inj ht, writeBatch_deletes, if_pos hq]
      · rw [writeBatch_deletes, if_neg hq]

theorem runUpdatesNow_idem (decompress : List Nat → Option (List Nat)) :
    ∀ (ups : List PendingUpdate) (s s1 : DocStore),
      ups.Pairwise (fun u v => ∀ k ∈ updTargets u, k ∉ updTargets v) →
      WfStore s → runUpdatesNow decompress s ups = some s1 →
      runUpdatesNow decompress s1 ups = some s1 := by
  intro ups
  induction ups with
  | nil => intro s s1 _ _ _; rfl
  | cons u rest ih =>
      intro s s1 hpw hwf h
      rw [show runUpdatesNow decompress s (u :: rest) =
        (match applyUpdateNow decompress s u with
         | some t => runUpdatesNow decompress t rest
         | none => none) from rfl] at h
      cases ha : applyUpdateNow decompress s u with
      | none => rw [ha] at h; exact Option.noConfusion h
      | some t =>
          rw [ha] at h
          replace h : runUpdatesNow decompress t rest = some s1 := h
          have hagree : ∀ k ∈ updTargets u, getDoc s1 k = getDoc t k := fun k hk =>
            runNow_local decompress rest t s1 h k
              (fun u' hu' => (List.pairwise_cons.mp hpw).1 u' hu' k hk)
          have hstep : applyUpdateNow decompress s1 u = some s1 :=
            applyUpdateNow_settled_transfer decompress s t s1 u hwf ha hagree
          have htail : runUpdatesNow decompress s1 rest = some s1 :=
            ih t s1 (List.pairwise_cons.mp hpw).2 (applyUpdateNow_wf decompress s u t hwf ha) h
          rw [show runUpdatesNow decompress s1 (u :: rest) =
            (match applyUpdateNow decompress s1 u with
             | some t2 => runUpdatesNow decompress t2 rest
             | none => none) from rfl, hstep]
          exact htail

theorem switchAccount_account (s : DocStore) (b : WriteBatch) (a : AccountId) :
    (switchAccount s b a).2.account_id = a := by
  unfold switchAccount
  by_cases h : a ≠ b.account_id
  · rw [if_pos h]
    by_cases he : b.is_empty = true
    · rw [if_pos he]
    · rw [if_neg he]
      rfl
  · rw [if_neg h]
    exact (not_ne_iff.mp h).symm

theorem switchAccount_flush (s : DocStore) (b : WriteBatch) (a : AccountId) :
    writeBatch (switchAccount s b a).1 (switchAccount s b a).2 = writeBatch s b := by
  unfold switchAccount
  by_cases h : a ≠ b.account_id
  · rw [if_pos h]
    by_cases he : b.is_empty = true
    · rw [if_pos he]
      show writeBatch s { b with account_id := a } = writeBatch s b
      rw [writeBatch_empty s { b with account_id := a } he, writeBatch_empty s b he]
    · rw [if_neg he]
      exact writeBatch_nil_ops (writeBatch s b) a
  · rw [if_neg h]

theorem switchAccount_fst (s : DocStore) (b : WriteBatch) (a : AccountId) (k : DocKey)
    (hk : k ∉ batchKeys b) :
    getDoc (switchAccount s b a).1 k = getDoc (writeBatch s b) k := by
  unfold switchAccount
  obtain ⟨ba, bops⟩ := b
  by_cases h : a ≠ ba
  · rw [if_pos h]
    by_cases he : WriteBatch.is_empty ⟨ba, bops⟩ = true
    · rw [if_pos he]
      rw [writeBatch_empty s _ he]
    · rw [if_neg he]
  · rw [if_neg h]
    rw [getDoc_writeBatch_ne ba k bops s (fun op hop heq => hk (by
      rw [heq]
      exact List.mem_map_of_mem (opKey ba) hop))]

theorem switchAccount_keys (s : DocStore) (b : WriteBatch) (a : AccountId) :
    ∀ q ∈ batchKeys (switchAccount s b a).2, q ∈ batchKeys b := by
  intro q hq
  unfold switchAccount at hq
  obtain ⟨ba, bops⟩ := b
  by_cases h : a ≠ ba
  · rw [if_pos h] at hq
    by_cases he : WriteBatch.is_empty ⟨ba, bops⟩ = true
    · rw [if_pos he] at hq
      cases bops with
      | nil => exact absurd hq (by simp [batchKeys])
      | cons o t => exact absurd he (by simp [WriteBatch.is_empty])
    · rw [if_neg he] at hq
      exact absurd hq (by simp [batchKeys, WriteBatch.new])
  · rw [if_neg h] at hq
    exact hq

theorem applyPendingUpdateList_cons_update (decompress : List Nat → Option (List Nat))
    (s : DocStore) (b : WriteBatch) (a : AccountId) (d : DocumentId) (du : DocumentUpdate)
    (rest : List PendingUpdate) :
    applyPendingUpdateList decompress s b (.updateDocument a d du :: rest) =
      (match apply_document_update decompress (switchAccount s b a).1 a d du
          (switchAccount s b a).2 with
       | some b2 => applyPendingUpdateList decompress (switchAccount s b a).1 b2 rest
       | none => none) := rfl

theorem applyPendingUpdateList_cons_delete (decompress : List Nat → Option (List Nat))
    (s : DocStore) (b : WriteBatch) (a : AccountId) (c : Collection)
    (ids : List DocumentId) (rest : List PendingUpdate) :
    applyPendingUpdateList decompress s b (.deleteDocuments a c ids :: rest) =
      applyPendingUpdateList decompress (switchAccount s b a).1
        ⟨(switchAccount s b a).2.account_id,
          (switchAccount s b a).2.ops ++ ids.map (BatchOp.deleteDocument c)⟩ rest := rfl

theorem runUpdatesNow_cons (decompress : List Nat → Option (List Nat)) (s : DocStore)
    (u : PendingUpdate) (rest : List PendingUpdate) :
    runUpdatesNow decompress s (u :: rest) =
      (match applyUpdateNow decompress s u with
       | some s2 => runUpdatesNow decompress s2 rest
       | none => none) := rfl

theorem apply_document_update_congr (decompress : List Nat → Option (List Nat))
    (s1 s2 : DocStore) (a : AccountId) (d : DocumentId) (du : DocumentUpdate)
    (b : WriteBatch)
    (h : ∀ k ∈ updTargets (.updateDocument a d du), getDoc s1 k = getDoc s2 k) :
    apply_document_update decompress s1 a d du b =
      apply_document_update decompress s2 a d du b := by
  cases du with
  | insertMail tid kw mbx rcv body =>
      rw [apply_document_update_insertMail_eq, apply_document_update_insertMail_eq]
      cases hdec : decompress body with
      | none => rfl
      | some raw =>
          show some (raft_update_mail s1 b a d tid mbx kw (some (raw, rcv))) =
            some (raft_update_mail s2 b a d tid mbx kw (some (raw, rcv)))
          rw [raft_update_mail_insert_eq, raft_update_mail_insert_eq]
  | updateMail tid kw mbx =>
      rw [apply_document_update_updateMail_eq, apply_document_update_updateMail_eq]
      obtain ⟨acc, ops⟩ := b
      rw [raft_update_mail_ops_append, raft_update_mail_ops_append,
        raftUpdateMailOps_congr s1 s2 a d tid mbx kw none
          (h (a, .mail, d) (by simp [updTargets]))]
  | updateMailbox mbx => rfl

theorem apply_document_update_append2 (decompress : List Nat → Option (List Nat))
    (s : DocStore) (a : AccountId) (d : DocumentId) (u : DocumentUpdate) (b : WriteBatch) :
    apply_document_update decompress s a d u b =
      (apply_document_update decompress s a d u (WriteBatch.new a)).map
        (fun b0 => ⟨b.account_id, b.ops ++ b0.ops⟩) := by
  obtain ⟨acc, ops⟩ := b
  exact apply_document_update_append decompress s a d u acc ops

theorem applyPendingUpdateList_eq_runNow (decompress : List Nat → Option (List Nat)) :
    ∀ (ups : List PendingUpdate) (s : DocStore) (b : WriteBatch),
      (∀ q ∈ batchKeys b, ∀ u ∈ ups, q ∉ updTargets u) →
      ups.Pairwise (fun u v => ∀ k ∈ updTargets u, k ∉ updTargets v) →
      applyPendingUpdateList decompress s b ups =
        runUpdatesNow decompress (writeBatch s b) ups := by
  intro ups
  induction ups with
  | nil =>
      intro s b _ _
      show some (if b.is_empty then s else writeBatch s b) = some (writeBatch s b)
      by_cases he : b.is_empty = true
      · rw [if_pos he, writeBatch_empty s b he]
      · rw [if_neg he]
  | cons u rest ih =>
      intro s b hb hpw
      have hdisj := (List.pairwise_cons.mp hpw).1
      have hpw' := (List.pairwise_cons.mp hpw).2
      cases u with
      | updateDocument a d du =>
          rw [applyPendingUpdateList_cons_update, runUpdatesNow_cons,
            applyUpdateNow_updateDocument_eq]
          have hkmem : ∀ k ∈ updTargets (.updateDocument a d du), k ∉ batchKeys b :=
            fun k hk hq => hb k hq _ (List.mem_cons_self _ _) hk
          have hread : ∀ k ∈ updTargets (.updateDocument a d du),
              getDoc (switchAccount s b a).1 k = getDoc (writeBatch s b) k :=
            fun k hk => switchAccount_fst s b a k (hkmem k hk)
          rw [apply_document_update_append2, apply_document_update_congr decompress
            (switchAccount s b a).1 (writeBatch s b) a d du (WriteBatch.new a) hread]
          cases hb0 : apply_document_update decompress (writeBatch s b) a d du
              (WriteBatch.new a) with
          | none => rfl
          | some b0 =>
              obtain ⟨hb0acc, hb0keys⟩ :=
                apply_document_update_new_spec decompress (writeBatch s b) a d du b0 hb0
              show applyPendingUpdateList decompress (switchAccount s b a).1
                  ⟨(switchAccount s b a).2.account_id,
                    (switchAccount s b a).2.ops ++ b0.ops⟩ rest =
                runUpdatesNow decompress (writeBatch (writeBatch s b) b0) rest
              have hb2 : ∀ q ∈ batchKeys (⟨(switchAccount s b a).2.account_id,
                  (switchAccount s b a).2.ops ++ b0.ops⟩ : WriteBatch),
                  ∀ u' ∈ rest, q ∉ updTargets u' := by
                intro q hq u' hu'
                have hq2 : q ∈ ((switchAccount s b a).2.ops ++ b0.ops).map
                    (opKey (switchAccount s b a).2.account_id) := hq
                rw [List.map_append] at hq2
                cases List.mem_append.mp hq2 with
                | inl h1 =>
                    have h1' : q ∈ batchKeys (switchAccount s b a).2 := h1
                    exact hb q (switchAccount_keys s b a q h1') u'
                      (List.mem_cons_of_mem _ hu')
                | inr h2 =>
                    obtain ⟨op, hop, hqe⟩ := List.mem_map.mp h2
                    rw [← hqe, switchAccount_account]
                    exact hdisj u' hu' (opKey a op) (hb0keys op hop)
              rw [ih _ _ hb2 hpw']
              congr 1
              rw [writeBatch_append_ops,
                show (⟨(switchAccount s b a).2.account_id, (switchAccount s b a).2.ops⟩ :
                  WriteBatch) = (switchAccount s b a).2 from rfl,
                switchAccount_flush, switchAccount_account, ← hb0acc]
      | deleteDocuments a c ids =>
          rw [applyPendingUpdateList_cons_delete, runUpdatesNow_cons,
            applyUpdateNow_delete_eq]
          show applyPendingUpdateList decompress (switchAccount s b a).1
              ⟨(switchAccount s b a).2.account_id,
                (switchAccount s b a).2.ops ++ ids.map (BatchOp.deleteDocument c)⟩ rest =
            runUpdatesNow decompress
              (writeBatch (writeBatch s b) ⟨a, ids.map (BatchOp.deleteDocument c)⟩) rest
          have hb2 : ∀ q ∈ batchKeys (⟨(switchAccount s b a).2.account_id,
              (switchAccount s b a).2.ops ++ ids.map (BatchOp.deleteDocument c)⟩ :
                WriteBatch),
              ∀ u' ∈ rest, q ∉ updTargets u' := by
            intro q hq u' hu'
            have hq2 : q ∈ ((switchAccount s b a).2.ops ++
                ids.map (BatchOp.deleteDocument c)).map
                (opKey (switchAccount s b a).2.account_id) := hq
            rw [List.map_append] at hq2
            cases List.mem_append.mp hq2 with
            | inl h1 =>
                have h1' : q ∈ batchKeys (switchAccount s b a).2 := h1
                exact hb q (switchAccount_keys s b a q h1') u' (List.mem_cons_of_mem _ hu')
            | inr h2 =>
                obtain ⟨op, hop, hqe⟩ := List.mem_map.mp h2
                obtain ⟨i, hi, hie⟩ := List.mem_map.mp hop
                rw [← hqe, ← hie, switchAccount_account]
                refine hdisj u' hu' (opKey a (BatchOp.deleteDocument c i)) ?_
                simp only [updTargets, opKey, List.mem_map]
                exact ⟨i, hi, rfl⟩
          rw [ih _ _ hb2 hpw']
          congr 1
          rw [writeBatch_append_ops,
            show (⟨(switchAccount s b a).2.account_id, (switchAccount s b a).2.ops⟩ :
              WriteBatch) = (switchAccount s b a).2 from rfl,
            switchAccount_flush, switchAccount_account]

/-- C5 (amended): applying a staged PendingUpdates batch a second time is
the identity, provided the staged updates touch pairwise disjoint document
keys, the store is well formed (at most one thread id per mail document),
and the first application succeeded: the second application succeeds and
returns the store produced by the first unchanged.  Without the
disjointness proviso the claim is false, because tag differences are
computed against the store as it was before the deferred batch write. -/
theorem c5_reapply_idempotent (decompress : List Nat → Option (List Nat)) (s : DocStore)
    (ups : List PendingUpdate)
    (hpw : ups.Pairwise (fun u v => ∀ k ∈ updTargets u, k ∉ updTargets v))
    (hwf : WfStore s) (s1 : DocStore)
    (h1 : applyPendingUpdateList decompress s (WriteBatch.new accountIdMax) ups = some s1) :
    applyPendingUpdateList decompress s1 (WriteBatch.new accountIdMax) ups = some s1 := by
  have hkeys : ∀ q ∈ batchKeys (WriteBatch.new accountIdMax), ∀ u ∈ ups,
      q ∉ updTargets u := fun q hq => absurd hq (by simp [batchKeys, WriteBatch.new])
  rw [applyPendingUpdateList_eq_runNow decompress ups s (WriteBatch.new accountIdMax)
    hkeys hpw] at h1
  rw [applyPendingUpdateList_eq_runNow decompress ups s1 (WriteBatch.new accountIdMax)
    hkeys hpw]
  rw [show writeBatch s1 (WriteBatch.new accountIdMax) = s1 from rfl]
  rw [show writeBatch s (WriteBatch.new accountIdMax) = s from rfl] at h1
  exact runUpdatesNow_idem decompress ups s s1 hpw hwf h1

/-- Witness for c5_reapply_idempotent: a concrete one-update batch against
a concrete well-formed store, with every hypothesis discharged there. -/
theorem c5_reapply_witness :
    List.Pairwise (fun u v => ∀ k ∈ updTargets u, k ∉ updTargets v)
      [PendingUpdate.updateDocument 1 0 (.updateMail 1 ∅ {10})] ∧
    WfStore (fun k => if k = ((1, Collection.mail, 0) : DocKey)
      then some (.mail ⟨{10}, ∅, {1}, [], 0⟩) else none) ∧
    applyPendingUpdateList (fun b => some b)
      (fun k => if k = ((1, Collection.mail, 0) : DocKey)
        then some (.mail ⟨{10}, ∅, {1}, [], 0⟩) else none)
      (WriteBatch.new accountIdMax)
      [PendingUpdate.updateDocument 1 0 (.updateMail 1 ∅ {10})] =
      some (fun k => if k = ((1, Collection.mail, 0) : DocKey)
        then some (.mail ⟨{10}, ∅, {1}, [], 0⟩) else none) := by
  have hwf : WfStore (fun k => if k = ((1, Collection.mail, 0) : DocKey)
      then some (.mail ⟨{10}, ∅, {1}, [], 0⟩) else none) := by
    intro k m hm
    by_cases hk : k = ((1, Collection.mail, 0) : DocKey)
    · rw [show getDoc (fun k => if k = ((1, Collection.mail, 0) : DocKey)
          then some (.mail ⟨{10}, ∅, {1}, [], 0⟩) else none) k =
          (if k = ((1, Collection.mail, 0) : DocKey)
            then some (.mail ⟨{10}, ∅, {1}, [], 0⟩) else none) from rfl, if_pos hk] at hm
      rw [← DocVal.mail.inj (Option.some.inj hm)]
      simp
    · rw [show getDoc (fun k => if k = ((1, Collection.mail, 0) : DocKey)
          then some (.mail ⟨{10}, ∅, {1}, [], 0⟩) else none) k =
          (if k = ((1, Collection.mail, 0) : DocKey)
            then some (.mail ⟨{10}, ∅, {1}, [], 0⟩) else none) from rfl, if_neg hk] at hm
      exact Option.noConfusion hm
  refine ⟨by simp, hwf, ?_⟩
  exact c5_reapply_idempotent (fun b => some b) _ _ (by simp) hwf _ rfl
